import Mathlib

/-!
Verification of the pychebfun Chebyshev interpolation core
(src/pychebfun/chebfun.py) against its natural-language specification.

Modelling conventions.  IEEE-754 double arithmetic is embedded as exact
arithmetic: real samples and coefficients become `ℝ`, complex ones `ℂ`,
and the float machine epsilon `sys.float_info.epsilon` becomes the exact
value `2⁻⁵²`.  Numpy's conditional cast to a real dtype (`np.real(...)`
guarded by `np.isrealobj`) is modelled by threading the dtype through a
`Bool` flag (`isReal`), since a numpy dtype is a static property of an
array, not of its values.  The numerical FFT/IFFT of `scipy.fftpack`
are embedded by their defining exponential sums.
-/

namespace Pychebfun

open Finset

/-- Machine epsilon `emach = sys.float_info.epsilon = 2⁻⁵²` (chebfun.py line 37). -/
noncomputable def emach : ℝ := 1 / 2 ^ 52

/-- Embedding of the root of unity `exp(2·π·i·d/L)` used by the discrete
Fourier transform; `d` is an integer exponent numerator. -/
noncomputable def eU (L : ℕ) (d : ℤ) : ℂ :=
  Complex.exp (2 * Real.pi * Complex.I * d / L)

/-- Embedding of `even_data` (chebfun.py lines 544-551):
`np.concatenate([data, data[-2:0:-1]])`, e.g. `[0,1,2,3,4] ↦ [0,1,2,3,4,3,2,1]`. -/
def even_data (data : List ℂ) : List ℂ :=
  data ++ ((data.drop 1).dropLast).reverse

/-- Embedding of `numpy.fft.fft` as called by `scipy.fftpack.fft`:
`X[j] = Σ_k x[k]·exp(-2πi·j·k/n)`. -/
noncomputable def fft (l : List ℂ) : List ℂ :=
  List.ofFn fun j : Fin l.length =>
    ∑ k ∈ Finset.range l.length, l.getD k 0 * eU l.length (-((j.val * k : ℕ) : ℤ))

/-- Embedding of `scipy.fftpack.ifft`: `x[j] = (1/n)·Σ_k X[k]·exp(2πi·j·k/n)`. -/
noncomputable def ifft (l : List ℂ) : List ℂ :=
  List.ofFn fun j : Fin l.length =>
    (∑ k ∈ Finset.range l.length, l.getD k 0 * eU l.length ((j.val * k : ℕ) : ℤ)) / l.length

/-- In-place update `l[i] := f l[i]` of a numpy array cell, as a list operation. -/
def updAt (l : List ℂ) (i : ℕ) (f : ℂ → ℂ) : List ℂ :=
  l.set i (f (l.getD i 0))

/-- The arithmetic part of `dct` (chebfun.py lines 582-595), before the
dtype-dependent cast: `N = len(data)//2`; `fftdata = fft(data)[:N+1]`;
`fftdata /= N`; `fftdata[0] /= 2`; `fftdata[-1] /= 2` (the index `-1` is
the last index of the truncated array). -/
noncomputable def dctPre (data : List ℂ) : List ℂ :=
  let N := data.length / 2
  let f1 := (fft data).take (N + 1)
  let f2 := f1.map (fun z => z / (N : ℂ))
  let f3 := updAt f2 0 (fun z => z / 2)
  updAt f3 (f3.length - 1) (fun z => z / 2)

/-- Embedding of `dct` (chebfun.py lines 582-595): the arithmetic part
`dctPre`, followed by discarding the imaginary residue when the input
dtype is real (`np.isrealobj`), modelled by the `isReal` flag. -/
noncomputable def dct (data : List ℂ) (isReal : Bool) : List ℂ :=
  if isReal then (dctPre data).map (fun z => ((z.re : ℝ) : ℂ)) else dctPre data

/-- Embedding of `chebpolyfit` (chebfun.py lines 568-578): length-1 input is
returned unchanged, otherwise `dct(even_data(sampled))`. -/
noncomputable def chebpolyfit (sampled : List ℂ) (isReal : Bool) : List ℂ :=
  if sampled.length = 1 then sampled else dct (even_data sampled) isReal

/-- The even-extended, rescaled coefficient array of `chebpolyval`
(chebfun.py lines 606-608): `data = even_data(chebcoeff)/2`,
`data[0] *= 2`, `data[N-1] *= 2`. -/
noncomputable def valData (chebcoeff : List ℂ) : List ℂ :=
  let d1 := (even_data chebcoeff).map (fun z => z / 2)
  let d2 := updAt d1 0 (fun z => z * 2)
  updAt d2 (chebcoeff.length - 1) (fun z => z * 2)

/-- The arithmetic part of `chebpolyval` for length `≥ 2` (chebfun.py lines
610-611): `fftdata = 2*(N-1)*ifft(data)`, keeping the first `N` entries. -/
noncomputable def valPre (chebcoeff : List ℂ) : List ℂ :=
  ((ifft (valData chebcoeff)).map
    (fun z => 2 * ((chebcoeff.length : ℂ) - 1) * z)).take chebcoeff.length

/-- Embedding of `chebpolyval` (chebfun.py lines 597-617): length-1 input is
returned unchanged; otherwise the arithmetic part `valPre`, followed by
discarding the imaginary residue for a real dtype. -/
noncomputable def chebpolyval (chebcoeff : List ℂ) (isReal : Bool) : List ℂ :=
  if chebcoeff.length = 1 then chebcoeff
  else if isReal then (valPre chebcoeff).map (fun z => ((z.re : ℝ) : ℂ))
  else valPre chebcoeff

/-- Embedding of `interpolation_points` (chebfun.py lines 553-559):
`cos(arange(N)·π/(N-1))`, with the special case `N = 1 ↦ [0]`. -/
noncomputable def interpolation_points (N : ℕ) : List ℝ :=
  if N = 1 then [0]
  else (List.range N).map fun k => Real.cos (k * Real.pi / ((N : ℝ) - 1))

/-- Embedding of `sample_function` (chebfun.py lines 561-566): sample `f` on
`N+1` Chebyshev points. -/
noncomputable def sample_function (f : ℝ → ℂ) (N : ℕ) : List ℂ :=
  (interpolation_points (N + 1)).map f

/-- Embedding of `Chebfun._threshold` (chebfun.py lines 166-172):
`bnd = 128*emach*scale`. -/
noncomputable def threshold (scale : ℝ) : ℝ := 128 * emach * scale

/-- Embedding of `np.max(np.abs(l))` for the nonempty arrays the code applies
it to (all entries are non-negative, so folding `max` from `0` agrees with
numpy's maximum of a nonempty array). -/
noncomputable def maxAbs (l : List ℂ) : ℝ := (l.map Complex.abs).foldr max 0

/-- Embedding of `abs(coeffs[-2:])` from `Chebfun.dichotomy`
(chebfun.py line 138). -/
noncomputable def lastTwoAbs (l : List ℂ) : List ℝ :=
  (l.drop (l.length - 2)).map Complex.abs

/-- Embedding of `Chebfun._cutoff` (chebfun.py lines 174-185):
`inds = np.nonzero(abs(coeffs) >= bnd)`; `N = inds[0][-1]` when some index
qualifies and `N = 0` otherwise; the result is `N+1`. -/
noncomputable def cutoff (coeffs : List ℂ) (scale : ℝ) : ℕ :=
  let bnd := threshold scale
  let inds := (List.range coeffs.length).filter
    (fun i => decide (bnd ≤ Complex.abs (coeffs.getD i 0)))
  inds.getLastD 0 + 1

/-- The pruned prefix `coeffs[:N]` kept by `Chebfun.from_chebcoeff`
(chebfun.py lines 112-114). -/
noncomputable def prunedCoeffs (coeffs : List ℂ) (scale : ℝ) : List ℂ :=
  coeffs.take (cutoff coeffs scale)

/-- The `Chebfun` value object: interpolation `values` at Chebyshev points,
the dtype flag of the values array, and the stored `_scale` field. -/
structure Chebfun where
  values : List ℂ
  isReal : Bool
  scale : ℝ

/-- Embedding of `Chebfun.__init__` with `scale=None` (chebfun.py lines
187-202): the stored scale is `np.max(np.abs(values))`. -/
noncomputable def Chebfun.ofValues (v : List ℂ) (b : Bool) : Chebfun :=
  { values := v, isReal := b, scale := maxAbs v }

/-- Embedding of `Chebfun.__init__` with an explicit `scale` argument
(chebfun.py lines 187-202): the supplied scale is stored as is. -/
def Chebfun.ofValuesScale (v : List ℂ) (b : Bool) (s : ℝ) : Chebfun :=
  { values := v, isReal := b, scale := s }

/-- Embedding of `Chebfun.from_chebcoeff` (chebfun.py lines 104-118):
optionally prune the coefficients, reconstruct values with `chebpolyval`,
and build the object with the supplied scale (default `1`). -/
noncomputable def Chebfun.from_chebcoeff (chebcoeff : List ℂ) (b : Bool)
    (prune : Bool) (scale : ℝ) : Chebfun :=
  let pc := if prune then prunedCoeffs chebcoeff scale else chebcoeff
  Chebfun.ofValuesScale (chebpolyval pc b) b scale

/-- Embedding of `Chebfun.size` (chebfun.py lines 318-319): the number of
interpolation values. -/
def Chebfun.size (f : Chebfun) : ℕ := f.values.length

/-- Embedding of `Chebfun.chebyshev_coefficients` (chebfun.py lines 321-322). -/
noncomputable def Chebfun.chebyshev_coefficients (f : Chebfun) : List ℂ :=
  chebpolyfit f.values f.isReal

/-- Embedding of `Chebfun.__neg__` (chebfun.py lines 304-308):
`from_data(-values)`. -/
noncomputable def Chebfun.neg (f : Chebfun) : Chebfun :=
  Chebfun.ofValues (f.values.map (fun z => -z)) f.isReal

/-- Embedding of `Chebfun.__add__` (chebfun.py lines 261-280): pick the
bigger/smaller operand by size, zero-pad the smaller one's coefficients,
add elementwise, and rebuild through `from_chebcoeff` with
`scale = max(self._scale, other._scale)`. -/
noncomputable def Chebfun.add (f other : Chebfun) : Chebfun :=
  let big := if other.size > f.size then other else f
  let small := if other.size > f.size then f else other
  let small_coeffs := small.chebyshev_coefficients
  let big_coeffs := big.chebyshev_coefficients
  let padded := small_coeffs ++ List.replicate (big_coeffs.length - small_coeffs.length) 0
  let chebsum := List.zipWith (fun x y => x + y) big_coeffs padded
  let new_scale := max f.scale other.scale
  Chebfun.from_chebcoeff chebsum (f.isReal && other.isReal) true new_scale

/-- Embedding of the `cast_scalar` decorator (chebfun.py lines 26-35): a bare
scalar operand is promoted to the degree-0 interpolant `Chebfun([other])`. -/
noncomputable def promoteScalar (s : ℂ) (b : Bool) : Chebfun :=
  Chebfun.ofValues [s] b

/-- Addition with a scalar right operand, as dispatched by `cast_scalar`. -/
noncomputable def Chebfun.addScalar (f : Chebfun) (s : ℂ) (b : Bool) : Chebfun :=
  f.add (promoteScalar s b)

/-- Embedding of `Chebfun.__sub__` (chebfun.py lines 285-290):
`self + (-other)`. -/
noncomputable def Chebfun.sub (f other : Chebfun) : Chebfun :=
  f.add other.neg

/-- Default `rtol` of `np.allclose`. -/
noncomputable def rtol : ℝ := 1 / 100000

/-- Default `atol` of `np.allclose`. -/
noncomputable def atol : ℝ := 1 / 100000000

/-- Embedding of `np.allclose(l, b)` for an array `l` and scalar comparand
`b`: every entry satisfies `|a - b| <= atol + rtol*|b|`. -/
def np_allclose (l : List ℂ) (b : ℂ) : Prop :=
  ∀ z ∈ l, Complex.abs (z - b) ≤ atol + rtol * Complex.abs b

/-- Embedding of scalar `np.allclose(a, b)`. -/
@[reducible] def np_allclose_scalar (a b : ℝ) : Prop :=
  |a - b| ≤ atol + rtol * |b|

/-- Embedding of `Chebfun.__nonzero__` (chebfun.py lines 249-253):
`not np.allclose(chebyshev_coefficients(), 0)`. -/
def Chebfun.nonzero (f : Chebfun) : Prop :=
  ¬ np_allclose f.chebyshev_coefficients 0

/-- Embedding of `Chebfun.__eq__` (chebfun.py lines 255-256):
`not (self - other)`. -/
def Chebfun.eq (f other : Chebfun) : Prop :=
  ¬ (f.sub other).nonzero

/-- The Chebyshev polynomial of the first kind `T n`, by its defining
recurrence; used to evaluate a Chebyshev coefficient series at a point. -/
def chebT {K : Type} [Field K] : ℕ → K → K
  | 0, _ => 1
  | 1, x => x
  | n + 2, x => 2 * x * chebT (n + 1) x - chebT n x

/-- Value at `x` of the Chebyshev series with coefficient list `c`
(the mathematical content of `numpy.polynomial.chebyshev.chebval`). -/
def chebSeriesEval {K : Type} [Field K] (c : List K) (x : K) : K :=
  ∑ j ∈ Finset.range c.length, c.getD j 0 * chebT j x

/-- Modelled from the spec and the numpy documentation: the entry of index
`k ≥ 1` of `numpy.polynomial.chebyshev.chebint(c)` (default arguments), as
called by `Chebfun.integrate`: `b[1] = c[0] - c[2]/2` and
`b[k] = (c[k-1] - c[k+1])/(2k)` for `k ≥ 2`, out-of-range entries read as 0. -/
def chebintBody {K : Type} [Field K] (c : List K) (k : ℕ) : K :=
  if k = 1 then c.getD 0 0 - c.getD 2 0 / 2
  else (c.getD (k - 1) 0 - c.getD (k + 1) 0) / (2 * (k : K))

/-- Modelled from the spec and the numpy documentation:
`numpy.polynomial.chebyshev.chebint(c)` with default arguments
(`m=1, k=0, lbnd=0, scl=1`), as called by `Chebfun.integrate`
(chebfun.py line 363).  The entries of index `≥ 1` follow `chebintBody`,
and the constant entry is fixed by numpy's
`tmp[0] += k[i] - chebval(lbnd, tmp)` with `k = 0` and `lbnd = 0`, i.e. so
that the resulting series takes the value `0` at the point `0`. -/
def chebint {K : Type} [Field K] (c : List K) : List K :=
  let n := c.length
  let b0 : K := -∑ j ∈ Finset.range n, chebintBody c (j + 1) * chebT (j + 1) (0 : K)
  b0 :: List.ofFn (fun j : Fin n => chebintBody c (j.val + 1))

/-- Embedding of `Chebfun.integrate` (chebfun.py lines 358-364):
`from_chebcoeff(chebint(chebyshev_coefficients()))` with the default
pruning scale `1`. -/
noncomputable def Chebfun.integrate (f : Chebfun) : Chebfun :=
  Chebfun.from_chebcoeff (chebint f.chebyshev_coefficients) f.isReal true 1

/-- The scaled coefficient array `SA = (A.T * 2*np.arange(m)).T` of
`differentiator` (chebfun.py line 646): `SA[k] = 2k*A[k]`. -/
def diffSA {K : Type} [Field K] (A : List K) : List K :=
  (List.range A.length).map fun k : ℕ => 2 * (k : K) * A.getD k 0

/-- One iteration of the loop of `differentiator` (chebfun.py lines
653-656): with `k = m-3-2j`, assign `DA[k] = SA[k+1] + DA[k+2]` and then
`DA[k-1] = SA[k] + DA[k+1]`. -/
def diffStep {K : Type} [Field K] (SA : List K) (m : ℕ) (DA : List K) (j : ℕ) : List K :=
  let k := m - 3 - 2 * j
  let DAa := DA.set k (SA.getD (k + 1) 0 + DA.getD (k + 2) 0)
  DAa.set (k - 1) (SA.getD k 0 + DAa.getD (k + 1) 0)

/-- Embedding of `differentiator` (chebfun.py lines 639-658), the one-step
Chebyshev differentiation recurrence: constants map to `[0]`, linear `A` to
`A[1:2]`; otherwise start from `DA = zeros_like(A)`, assign the slice
`DA[m-3:m-1] = SA[m-2:m]`, run `diffStep` for `j` in `range(m//2 - 1)`, and
finish with `DA[0] = (SA[1] + DA[2])*0.5`. -/
def differentiator {K : Type} [Field K] (A : List K) : List K :=
  let m := A.length
  let SA := diffSA A
  if m = 1 then [0]
  else if m = 2 then A.drop 1
  else
    let DA0 := List.replicate m (0 : K)
    let DA1 := (DA0.set (m - 3) (SA.getD (m - 2) 0)).set (m - 2) (SA.getD (m - 1) 0)
    let DA2 := (List.range (m / 2 - 1)).foldl (diffStep SA m) DA1
    DA2.set 0 ((SA.getD 1 0 + DA2.getD 2 0) * (1 / 2 : K))

/-- Embedding of `Chebfun.differentiate` (chebfun.py lines 369-376): apply
`differentiator` `n` times to the coefficients and rebuild. -/
noncomputable def Chebfun.differentiate (f : Chebfun) (n : ℕ) : Chebfun :=
  Chebfun.from_chebcoeff
    (Nat.iterate differentiator n f.chebyshev_coefficients) f.isReal true 1

/-- Embedding of the companion-coefficient construction of `Chebfun.roots`
(chebfun.py lines 386-389): `coeffs = np.hstack([ai[-1::-1], ai[1:]])`,
then `coeffs[N-1] *= 2`. -/
noncomputable def companionCoeffs (ai : List ℂ) : List ℂ :=
  updAt (ai.reverse ++ ai.drop 1) (ai.length - 1) (fun z => z * 2)

/-- Embedding of `np.unique`: the sorted list of distinct values. -/
noncomputable def np_unique (l : List ℝ) : List ℝ :=
  List.insertionSort (fun a b => a ≤ b) l.dedup

/-- Evaluation of the polynomial with coefficient list `l` (lowest degree
first, the convention of `numpy.polynomial.polynomial`) at `z`; used to
certify that a value is a root of the companion polynomial. -/
noncomputable def polyEval (l : List ℂ) (z : ℂ) : ℂ :=
  ∑ i ∈ Finset.range l.length, l.getD i 0 * z ^ i

/-- Embedding of `Chebfun.roots` (chebfun.py lines 381-393) as a function of
the coefficient series.  The numerical solver
`numpy.polynomial.polynomial.polyroots` (a floating-point companion-matrix
eigenvalue computation with no exact definition) is abstracted as the
function argument `polyroots`.  The retained roots are those with
`np.allclose(abs(r), 1.)`; they are mapped to their real parts and passed
through `np.unique`. -/
noncomputable def rootsOfCoeffs (polyroots : List ℂ → List ℂ) (ai : List ℂ) : List ℝ :=
  let coeffs := companionCoeffs ai
  let complex_roots := polyroots coeffs
  let real_roots := (complex_roots.filter
    (fun r => decide (np_allclose_scalar (Complex.abs r) 1))).map Complex.re
  np_unique real_roots

/-- Embedding of `Chebfun.roots` on a `Chebfun` object. -/
noncomputable def Chebfun.roots (polyroots : List ℂ → List ℂ) (f : Chebfun) : List ℝ :=
  rootsOfCoeffs polyroots f.chebyshev_coefficients

/-- The per-trial coefficients computed inside `Chebfun.dichotomy`
(chebfun.py lines 128-132): `chebpolyfit(sample_function(f, 2^k))`. -/
noncomputable def trialCoeffs (f : ℝ → ℂ) (fReal : Bool) (k : ℕ) : List ℂ :=
  chebpolyfit (sample_function f (2 ^ k)) fReal

/-- The acceptance test of `Chebfun.dichotomy` at trial exponent `k`
(chebfun.py lines 136-139): the magnitudes of the last two coefficients
are both at most `128*emach*max(abs(coeffs))`. -/
def accepts (f : ℝ → ℂ) (fReal : Bool) (k : ℕ) : Prop :=
  ∀ x ∈ lastTwoAbs (trialCoeffs f fReal k), x ≤ threshold (maxAbs (trialCoeffs f fReal k))

/-- The loop of `Chebfun.dichotomy` (chebfun.py lines 128-144), with `fuel`
the number of remaining trial exponents starting at `k`.  An accepted trial
returns its coefficients; on the final failed trial the loop falls through
to the for-else clause: raise `NoConvergence(last, bnd)` when requested,
otherwise return the last computed coefficients.  The `fuel = 0` equation
is only reached when `kmax ≤ kmin`, where the Python code would hit
unbound local variables (a `NameError`), modelled by a sentinel error. -/
noncomputable def dichotomyGo (f : ℝ → ℂ) (fReal : Bool) (raiseNC : Bool) :
    ℕ → ℕ → Except (List ℝ × ℝ) (List ℂ)
  | _, 0 => Except.error ([], 0)
  | k, fuel + 1 =>
    let coeffs := trialCoeffs f fReal k
    let bnd := threshold (maxAbs coeffs)
    let last := lastTwoAbs coeffs
    if ∀ x ∈ last, x ≤ bnd then Except.ok coeffs
    else if fuel = 0 then
      (if raiseNC then Except.error (last, bnd) else Except.ok coeffs)
    else dichotomyGo f fReal raiseNC (k + 1) fuel

/-- Embedding of `Chebfun.dichotomy` (chebfun.py lines 120-144): trial
exponents `k` in `xrange(kmin, kmax)`; a raised `NoConvergence(last, bnd)`
is the `Except.error` case carrying its payload. -/
noncomputable def dichotomy (f : ℝ → ℂ) (fReal : Bool) (kmin kmax : ℕ)
    (raiseNC : Bool) : Except (List ℝ × ℝ) (List ℂ) :=
  dichotomyGo f fReal raiseNC kmin (kmax - kmin)

/-- The list of trial exponents probed by `xrange(kmin, kmax)`. -/
def trialExponents (kmin kmax : ℕ) : List ℕ :=
  List.range' kmin (kmax - kmin)

/-- The `kmin` computed by `Chebfun.from_function` from a hint degree
(chebfun.py line 154): `nextpow2 = int(np.log2(N)) + 1`; for `N ≥ 1` the
truncated float logarithm `int(np.log2(N))` is `⌊log₂ N⌋ = Nat.log 2 N`. -/
def hintKmin (N0 : ℕ) : ℕ := Nat.log 2 N0 + 1

/-- The `kmax` computed by `Chebfun.from_function` from a hint degree
(chebfun.py line 156): `nextpow2 + 1`. -/
def hintKmax (N0 : ℕ) : ℕ := hintKmin N0 + 1

/-- Embedding of `Chebfun.from_function` (chebfun.py lines 146-164): with a
hint `N` the dichotomy range is `[hintKmin N, hintKmax N)` and
`raise_no_convergence = False`; without a hint it is the default range
`[2, 12)` with `raise_no_convergence = True`.  The accepted coefficients
are rebuilt through `from_chebcoeff` with its default scale `1`. -/
noncomputable def from_function (f : ℝ → ℂ) (fReal : Bool) (N : Option ℕ) :
    Except (List ℝ × ℝ) Chebfun :=
  match N with
  | some N0 =>
    (dichotomy f fReal (hintKmin N0) (hintKmax N0) false).map
      (fun c => Chebfun.from_chebcoeff c fReal true 1)
  | none =>
    (dichotomy f fReal 2 12 true).map
      (fun c => Chebfun.from_chebcoeff c fReal true 1)

/-! ### Generic list access helpers -/

theorem getD_ofFn_lt {α : Type} {n : ℕ} (g : Fin n → α) (j : ℕ) (h : j < n) (d : α) :
    (List.ofFn g).getD j d = g ⟨j, h⟩ := by
  have hlen : j < (List.ofFn g).length := by simpa using h
  rw [List.getD_eq_getElem _ _ hlen]
  simp

theorem getLastD_concat {α : Type} (l : List α) (a : α) :
    ∀ d, (l ++ [a]).getLastD d = a := by
  induction l with
  | nil => intro d; rfl
  | cons x xs ih =>
    intro d
    rw [List.cons_append, List.getLastD_cons]
    exact ih x

theorem filter_range_getLastD_of_max (n : ℕ) (p : ℕ → Bool) (i : ℕ)
    (hi : i < n) (hpi : p i = true) (hmax : ∀ j, i < j → j < n → p j = false) :
    ((List.range n).filter p).getLastD 0 = i := by
  induction n with
  | zero => omega
  | succ m ih =>
    rw [List.range_succ, List.filter_append]
    by_cases him : i = m
    · subst him
      simp only [List.filter_cons, List.filter_nil, hpi, if_pos]
      exact getLastD_concat _ _ 0
    · have hm : p m = false := hmax m (by omega) (by omega)
      simp only [List.filter_cons, List.filter_nil, hm]
      simp only [Bool.false_eq_true, if_false, List.append_nil]
      exact ih (by omega) (fun j hj1 hj2 => hmax j hj1 (by omega))

theorem filter_range_eq_nil (n : ℕ) (p : ℕ → Bool)
    (h : ∀ j, j < n → p j = false) : (List.range n).filter p = [] := by
  rw [List.filter_eq_nil_iff]
  intro a ha
  rw [List.mem_range] at ha
  simp [h a ha]

theorem maxAbs_nonneg (l : List ℂ) : 0 ≤ maxAbs l := by
  induction l with
  | nil => exact le_refl 0
  | cons z zs ih =>
    have : maxAbs (z :: zs) = max (Complex.abs z) (maxAbs zs) := rfl
    rw [this]
    exact le_trans ih (le_max_right _ _)

/-! ### Claim C2: the degree-hint narrowing of from_function -/

theorem dichotomyGo_no_raise_ok (f : ℝ → ℂ) (fReal : Bool) :
    ∀ fuel k, 1 ≤ fuel → ∃ c, dichotomyGo f fReal false k fuel = Except.ok c := by
  intro fuel
  induction fuel with
  | zero => intro k h; omega
  | succ m ih =>
    intro k _
    simp only [dichotomyGo]
    by_cases hacc : ∀ x ∈ lastTwoAbs (trialCoeffs f fReal k),
        x ≤ threshold (maxAbs (trialCoeffs f fReal k))
    · exact ⟨trialCoeffs f fReal k, if_pos hacc⟩
    · by_cases hm : m = 0
      · subst hm
        refine ⟨trialCoeffs f fReal k, ?_⟩
        rw [if_neg hacc, if_pos rfl, if_neg Bool.false_ne_true]
      · obtain ⟨c, hc⟩ := ih (k + 1) (by omega)
        refine ⟨c, ?_⟩
        rw [if_neg hacc, if_neg hm]
        exact hc

/-- C2 counterexample: for the hint degree `N₀ = 8` the search range computed
by `from_function` probes exactly the one trial exponent `4`, which is not
the claimed pair `⌈log₂ 8⌉ = 3` and `⌈log₂ 8⌉ + 1 = 4`, and the lower bound
`hintKmin 8 = 4` differs from `⌈log₂ 8⌉ = 3`. -/
theorem from_function_hint_counterexample :
    trialExponents (hintKmin 8) (hintKmax 8) = [4] ∧
    [4] ≠ [Nat.clog 2 8, Nat.clog 2 8 + 1] ∧
    hintKmin 8 ≠ Nat.clog 2 8 := by
  have h8 : (8 : ℕ) = 2 ^ 3 := by norm_num
  have hlog : Nat.log 2 8 = 3 := by rw [h8, Nat.log_pow (by norm_num)]
  have hclog : Nat.clog 2 8 = 3 := by rw [h8, Nat.clog_pow 2 3 (by norm_num)]
  refine ⟨?_, ?_, ?_⟩
  · show List.range' (hintKmin 8) (hintKmax 8 - hintKmin 8) = [4]
    simp [hintKmax, hintKmin, hlog, List.range']
  · simp [hclog]
  · simp [hintKmin, hlog, hclog]

/-- C2 (amended): for a hint degree `N₀ ≥ 1`, `from_function` narrows the
dichotomy to the single trial exponent `k = ⌊log₂ N₀⌋ + 1` (range
`[⌊log₂ N₀⌋ + 1, ⌊log₂ N₀⌋ + 2)`), and forces `raise_no_convergence` to
false, so the construction never fails with `NoConvergence`. -/
theorem from_function_hint_single_trial (N0 : ℕ) (_h : 1 ≤ N0) :
    hintKmin N0 = Nat.log 2 N0 + 1 ∧
    hintKmax N0 = Nat.log 2 N0 + 2 ∧
    trialExponents (hintKmin N0) (hintKmax N0) = [Nat.log 2 N0 + 1] ∧
    ∀ (f : ℝ → ℂ) (fReal : Bool) (e : List ℝ × ℝ),
      from_function f fReal (some N0) ≠ Except.error e := by
  refine ⟨rfl, rfl, ?_, ?_⟩
  · show List.range' (Nat.log 2 N0 + 1) (hintKmax N0 - hintKmin N0) = _
    have h1 : hintKmax N0 - hintKmin N0 = 1 := by simp [hintKmax]
    rw [h1]
    rfl
  · intro f fReal e
    obtain ⟨c, hc⟩ := dichotomyGo_no_raise_ok f fReal 1 (hintKmin N0) (le_refl 1)
    have hd : dichotomy f fReal (hintKmin N0) (hintKmax N0) false = Except.ok c := by
      rw [dichotomy]
      have h1 : hintKmax N0 - hintKmin N0 = 1 := by simp [hintKmax]
      rw [h1]
      exact hc
    simp [from_function, hd, Except.map]

/-! ### Claim C3: the coefficient pruner -/

theorem cutoff_qualifying (c : List ℂ) (s : ℝ) (i : ℕ) (hi : i < c.length)
    (hqual : threshold s ≤ Complex.abs (c.getD i 0))
    (hlast : ∀ j, i < j → j < c.length → Complex.abs (c.getD j 0) < threshold s) :
    cutoff c s = i + 1 := by
  show ((List.range c.length).filter
      (fun i => decide (threshold s ≤ Complex.abs (c.getD i 0)))).getLastD 0 + 1 = i + 1
  rw [filter_range_getLastD_of_max c.length _ i hi (by simpa using hqual)
    (fun j hj1 hj2 => by simpa using not_le.mpr (hlast j hj1 hj2))]

theorem cutoff_none_qualifying (c : List ℂ) (s : ℝ)
    (hnone : ∀ i, i < c.length → Complex.abs (c.getD i 0) < threshold s) :
    cutoff c s = 1 := by
  show ((List.range c.length).filter
      (fun i => decide (threshold s ≤ Complex.abs (c.getD i 0)))).getLastD 0 + 1 = 1
  rw [filter_range_eq_nil c.length _
    (fun j hj => by simpa using not_le.mpr (hnone j hj))]
  rfl

/-- C3 counterexample: for the coefficient vector `[0]` and scale `1`, no
coefficient reaches the threshold `128·emach·1`, yet the cutoff is `1`, not
the claimed `0`, and the returned prefix is `[0]`, not the claimed empty
prefix. -/
theorem cutoff_counterexample :
    (∀ i, i < ([(0 : ℂ)]).length → Complex.abs (([(0 : ℂ)]).getD i 0) < threshold 1) ∧
    cutoff [(0 : ℂ)] 1 ≠ 0 ∧ prunedCoeffs [(0 : ℂ)] 1 ≠ [] := by
  have hth : (0 : ℝ) < threshold 1 := by
    rw [threshold, emach]
    norm_num
  have hnone : ∀ i, i < ([(0 : ℂ)]).length →
      Complex.abs (([(0 : ℂ)]).getD i 0) < threshold 1 := by
    intro i hi
    have hi0 : i = 0 := by
      simp only [List.length_singleton] at hi
      omega
    subst hi0
    simpa using hth
  refine ⟨hnone, ?_, ?_⟩
  · rw [cutoff_none_qualifying _ _ hnone]
    omega
  · show ([(0 : ℂ)]).take (cutoff [(0 : ℂ)] 1) ≠ []
    rw [cutoff_none_qualifying _ _ hnone]
    simp

/-- C3 (amended): the pruner computes `threshold = 128·emach·scale` and a
cutoff equal to `1 +` the index of the last coefficient with magnitude at
least the threshold; however when no coefficient qualifies the fallback
index `0` still yields cutoff `1` (the first coefficient is kept), not `0`;
`from_chebcoeff` keeps exactly the prefix `coeffs[:cutoff]`. -/
theorem cutoff_spec (c : List ℂ) (s : ℝ) :
    (∀ i, i < c.length → threshold s ≤ Complex.abs (c.getD i 0) →
      (∀ j, i < j → j < c.length → Complex.abs (c.getD j 0) < threshold s) →
      cutoff c s = i + 1) ∧
    ((∀ i, i < c.length → Complex.abs (c.getD i 0) < threshold s) →
      cutoff c s = 1) ∧
    prunedCoeffs c s = c.take (cutoff c s) := by
  exact ⟨fun i hi hq hl => cutoff_qualifying c s i hi hq hl,
    fun hn => cutoff_none_qualifying c s hn, rfl⟩

/-- C3 witness: the amended theorem applied to the vector `[1]` with scale
`0`: the threshold is `0`, index `0` qualifies, and the cutoff is `1`. -/
theorem cutoff_spec_witness : cutoff [(1 : ℂ)] 0 = 0 + 1 :=
  (cutoff_spec [(1 : ℂ)] 0).1 0 (by simp)
    (by simp [threshold])
    (by intro j hj1 hj2; simp at hj2; omega)

/-! ### Claim C9: the stored scale field -/

/-- C9 counterexample: the interpolant built by `from_chebcoeff([2])` with
the default scale argument stores scale `1`, while its maximum absolute
sampled value is `2`. -/
theorem scale_counterexample :
    (Chebfun.from_chebcoeff [(2 : ℂ)] true true 1).scale = 1 ∧
    maxAbs (Chebfun.from_chebcoeff [(2 : ℂ)] true true 1).values = 2 ∧
    (1 : ℝ) ≠ 2 := by
  refine ⟨rfl, ?_, by norm_num⟩
  have hcut : cutoff [(2 : ℂ)] 1 = 0 + 1 := by
    apply cutoff_qualifying
    · simp
    · rw [threshold, emach]
      simp only [List.getD_cons_zero, Complex.abs_two]
      norm_num
    · intro j hj1 hj2
      simp only [List.length_singleton] at hj2
      omega
  have hvals : (Chebfun.from_chebcoeff [(2 : ℂ)] true true 1).values = [(2 : ℂ)] := by
    show chebpolyval (prunedCoeffs [(2 : ℂ)] 1) true = [(2 : ℂ)]
    rw [prunedCoeffs, hcut]
    rfl
  rw [hvals]
  show max (Complex.abs 2) ((List.map Complex.abs []).foldr max 0) = 2
  simp [Complex.abs_two]

/-- C9 (amended): an interpolant built directly from values (no explicit
scale supplied) stores the non-negative scale `max |values|`; an interpolant
built through `from_chebcoeff` stores the caller-supplied scale argument
(default `1`), which need not equal the maximum absolute sampled value. -/
theorem scale_spec :
    (∀ (v : List ℂ) (b : Bool),
      (Chebfun.ofValues v b).scale = maxAbs v ∧ 0 ≤ (Chebfun.ofValues v b).scale) ∧
    (∀ (a : List ℂ) (b p : Bool) (s : ℝ), (Chebfun.from_chebcoeff a b p s).scale = s) := by
  exact ⟨fun v b => ⟨rfl, maxAbs_nonneg v⟩, fun a b p s => rfl⟩

/-! ### Claim C6: the antiderivative's integration constant -/

theorem chebint_eval_zero {K : Type} [Field K] (c : List K) :
    chebSeriesEval (chebint c) 0 = 0 := by
  have hlen : (chebint c).length = c.length + 1 := by
    simp [chebint]
  rw [chebSeriesEval, hlen, Finset.sum_range_succ']
  have h0 : (chebint c).getD 0 0 =
      -∑ j ∈ Finset.range c.length, chebintBody c (j + 1) * chebT (j + 1) (0 : K) := by
    rfl
  have hsucc : ∀ j, j < c.length →
      (chebint c).getD (j + 1) 0 = chebintBody c (j + 1) := by
    intro j hj
    show (List.ofFn (fun i : Fin c.length => chebintBody c (i.val + 1))).getD j 0 = _
    rw [getD_ofFn_lt _ j hj]
  rw [Finset.sum_congr rfl (fun j hj => by
    rw [hsucc j (Finset.mem_range.mp hj)])]
  rw [h0]
  show (∑ j ∈ Finset.range c.length, chebintBody c (j + 1) * chebT (j + 1) (0 : K)) +
      (-∑ j ∈ Finset.range c.length, chebintBody c (j + 1) * chebT (j + 1) (0 : K)) *
        chebT 0 (0 : K) = 0
  rw [show chebT 0 (0 : K) = 1 from rfl]
  ring

/-- C6 counterexample: for the constant-one interpolant, the antiderivative
coefficient series computed by `integrate` is `[0, 1]` (the primitive `x`),
which evaluates to `-1`, not `0`, at the left endpoint `x = -1`. -/
theorem integrate_counterexample :
    chebSeriesEval (chebint (Chebfun.ofValues [(1 : ℂ)] true).chebyshev_coefficients)
      (-1) = -1 ∧ (-1 : ℂ) ≠ 0 := by
  constructor
  · have hco : (Chebfun.ofValues [(1 : ℂ)] true).chebyshev_coefficients = [(1 : ℂ)] := rfl
    rw [hco]
    show chebSeriesEval (chebint [(1 : ℂ)]) (-1) = -1
    have hint : chebint [(1 : ℂ)] = [0, 1] := by
      simp [chebint, chebintBody, chebT]
    rw [hint, chebSeriesEval]
    simp [Finset.sum_range_succ, chebT]
  · norm_num

/-- C6 (amended): the antiderivative operation `integrate` produces the
coefficient series `chebint(chebyshev_coefficients())`, whose integration
constant `b[0]` is fixed so that the primitive series evaluates to zero at
`x = 0` (numpy's default `lbnd = 0`), not at the left endpoint `-1`. -/
theorem integrate_zero_at_zero (f : Chebfun) :
    chebSeriesEval (chebint f.chebyshev_coefficients) 0 = 0 ∧
    f.integrate = Chebfun.from_chebcoeff (chebint f.chebyshev_coefficients)
      f.isReal true 1 :=
  ⟨chebint_eval_zero _, rfl⟩

/-! ### Claim C5: the one-step differentiation recurrence -/

theorem getD_set_self {α : Type} (l : List α) (i : ℕ) (a d : α) (h : i < l.length) :
    (l.set i a).getD i d = a := by
  rw [List.getD_eq_getElem _ _ (by simpa using h), List.getElem_set]
  simp

theorem getD_set_ne {α : Type} (l : List α) (i j : ℕ) (a d : α) (h : i ≠ j) :
    (l.set i a).getD j d = l.getD j d := by
  by_cases hj : j < l.length
  · rw [List.getD_eq_getElem _ _ (by simpa using hj), List.getD_eq_getElem _ _ hj,
      List.getElem_set_of_ne h]
  · rw [List.getD_eq_default _ _ (by simpa using Nat.le_of_not_lt hj),
      List.getD_eq_default _ _ (Nat.le_of_not_lt hj)]

theorem getD_replicate_lt {α : Type} (n i : ℕ) (a d : α) (h : i < n) :
    (List.replicate n a).getD i d = a := by
  rw [List.getD_eq_getElem _ _ (by simpa using h)]
  simp

/-- The value `2k·A[k]` of the scaled array, as a function of the index;
it agrees with `(diffSA A).getD k 0` at every index because out-of-range
reads of both sides are `0`. -/
def sAfun {K : Type} [Field K] (A : List K) (k : ℕ) : K :=
  2 * (k : K) * A.getD k 0

theorem diffSA_getD {K : Type} [Field K] (A : List K) (k : ℕ) :
    (diffSA A).getD k 0 = sAfun A k := by
  by_cases h : k < A.length
  · rw [diffSA, List.getD_eq_getElem _ _ (by simpa using h)]
    simp [sAfun]
  · have h1 : A.length ≤ k := Nat.le_of_not_lt h
    rw [diffSA, List.getD_eq_default _ _ (by simpa using h1), sAfun,
      List.getD_eq_default _ _ h1]
    ring

/-- The closed form of the loop of `differentiator`: the entry of index `i`
(for `1 ≤ i ≤ m-2`, and also the pre-overwrite entry of index `0`) is the
alternating tail sum `Σ_t s[i+1+2t]` over the indices `i+1+2t ≤ m-1`. -/
def bClos {K : Type} [Field K] (A : List K) (i : ℕ) : K :=
  ∑ t ∈ Finset.range ((A.length - 2 - i) / 2 + 1), sAfun A (i + 1 + 2 * t)

theorem bClos_top {K : Type} [Field K] (A : List K) (h : 3 ≤ A.length) :
    bClos A (A.length - 2) = sAfun A (A.length - 1) := by
  rw [bClos]
  have h1 : (A.length - 2 - (A.length - 2)) / 2 + 1 = 1 := by omega
  rw [h1, Finset.sum_range_one]
  congr 1
  omega

theorem bClos_top2 {K : Type} [Field K] (A : List K) (h : 3 ≤ A.length) :
    bClos A (A.length - 3) = sAfun A (A.length - 2) := by
  rw [bClos]
  have h1 : (A.length - 2 - (A.length - 3)) / 2 + 1 = 1 := by omega
  rw [h1, Finset.sum_range_one]
  congr 1
  omega

theorem bClos_rec {K : Type} [Field K] (A : List K) (i : ℕ) (h : i + 4 ≤ A.length) :
    bClos A i = sAfun A (i + 1) + bClos A (i + 2) := by
  rw [bClos, bClos]
  have h1 : (A.length - 2 - i) / 2 + 1 = ((A.length - 2 - (i + 2)) / 2 + 1) + 1 := by
    omega
  rw [h1, Finset.sum_range_succ']
  rw [Finset.sum_congr rfl (fun t _ => by
    rw [show i + 1 + 2 * (t + 1) = i + 2 + 1 + 2 * t from by ring])]
  rw [show i + 1 + 2 * 0 = i + 1 from by ring]
  ring

theorem diffLoop_invariant {K : Type} [Field K] (A : List K) (h3 : 3 ≤ A.length) :
    ∀ t, t ≤ A.length / 2 - 1 →
      ((List.range t).foldl (diffStep (diffSA A) A.length)
        (((List.replicate A.length (0 : K)).set (A.length - 3)
            ((diffSA A).getD (A.length - 2) 0)).set
          (A.length - 2) ((diffSA A).getD (A.length - 1) 0))).length = A.length ∧
      ∀ i, ((List.range t).foldl (diffStep (diffSA A) A.length)
        (((List.replicate A.length (0 : K)).set (A.length - 3)
            ((diffSA A).getD (A.length - 2) 0)).set
          (A.length - 2) ((diffSA A).getD (A.length - 1) 0))).getD i 0 =
        if min (A.length - 3) (A.length - 2 - 2 * t) ≤ i ∧
            i ≤ A.length - 2 then bClos A i else 0 := by
  intro t
  induction t with
  | zero =>
    intro _
    constructor
    · simp
    · intro i
      simp only [List.range_zero, List.foldl_nil]
      by_cases hi2 : i = A.length - 2
      · subst hi2
        rw [getD_set_self _ _ _ _ (by simp; omega)]
        rw [if_pos (by omega), bClos_top A h3, diffSA_getD]
      · rw [getD_set_ne _ _ _ _ _ (fun hcon => hi2 hcon.symm)]
        by_cases hi3 : i = A.length - 3
        · subst hi3
          rw [getD_set_self _ _ _ _ (by simp; omega)]
          rw [if_pos (by omega), bClos_top2 A h3, diffSA_getD]
        · rw [getD_set_ne _ _ _ _ _ (fun hcon => hi3 hcon.symm)]
          rw [if_neg (by omega)]
          by_cases hi : i < A.length
          · exact getD_replicate_lt _ _ _ _ hi
          · rw [List.getD_eq_default _ _ (by simpa using Nat.le_of_not_lt hi)]
  | succ t ih =>
    intro ht
    obtain ⟨ihlen, ihget⟩ := ih (by omega)
    have hk1 : 1 ≤ A.length - 3 - 2 * t := by omega
    constructor
    · simp only [List.range_succ, List.foldl_append, List.foldl_cons, List.foldl_nil,
        diffStep, List.length_set]
      exact ihlen
    · intro i
      simp only [List.range_succ, List.foldl_append, List.foldl_cons, List.foldl_nil,
        diffStep]
      set DA := (List.range t).foldl (diffStep (diffSA A) A.length)
        (((List.replicate A.length (0 : K)).set (A.length - 3)
            ((diffSA A).getD (A.length - 2) 0)).set
          (A.length - 2) ((diffSA A).getD (A.length - 1) 0)) with hDA
      set k := A.length - 3 - 2 * t with hk
      -- value placed at index k
      have hvalk : (diffSA A).getD (k + 1) 0 + DA.getD (k + 2) 0 = bClos A k := by
        by_cases ht0 : t = 0
        · subst ht0
          rw [ihget (k + 2), if_neg (by omega), diffSA_getD]
          rw [show k + 1 = A.length - 2 from by omega,
            show k = A.length - 3 from by omega, bClos_top2 A h3]
          ring
        · rw [ihget (k + 2), if_pos (by constructor <;> omega), diffSA_getD]
          rw [bClos_rec A k (by omega)]
      -- value placed at index k-1
      have hvalk1 : ∀ DAa : List K, DAa.getD (k + 1) 0 = DA.getD (k + 1) 0 →
          (diffSA A).getD k 0 + DAa.getD (k + 1) 0 = bClos A (k - 1) := by
        intro DAa hDAa
        rw [hDAa, ihget (k + 1), if_pos (by constructor <;> omega), diffSA_getD]
        rw [bClos_rec A (k - 1) (by omega)]
        rw [show k - 1 + 1 = k from by omega, show k - 1 + 2 = k + 1 from by omega]
      by_cases hik1 : i = k - 1
      · subst hik1
        rw [getD_set_self _ _ _ _ (by rw [List.length_set, ihlen]; omega)]
        rw [hvalk1 _ (getD_set_ne _ _ _ _ _ (by omega)), if_pos (by omega)]
      · rw [getD_set_ne _ _ _ _ _ (fun hcon => hik1 hcon.symm)]
        by_cases hik : i = k
        · subst hik
          rw [getD_set_self _ _ _ _ (by rw [ihlen]; omega)]
          rw [hvalk, if_pos (by omega)]
        · rw [getD_set_ne _ _ _ _ _ (fun hcon => hik hcon.symm)]
          rw [ihget i]
          by_cases hiwin : min (A.length - 3) (A.length - 2 - 2 * t) ≤ i ∧
              i ≤ A.length - 2
          · rw [if_pos hiwin, if_pos (by omega)]
          · rw [if_neg hiwin, if_neg (by omega)]

theorem differentiator_entries {K : Type} [Field K] (A : List K) (h3 : 3 ≤ A.length) :
    (differentiator A).length = A.length ∧
    (differentiator A).getD 0 0 =
      (sAfun A 1 + (if 4 ≤ A.length then bClos A 2 else 0)) * (1 / 2 : K) ∧
    ∀ i, 1 ≤ i → (differentiator A).getD i 0 =
      if i ≤ A.length - 2 then bClos A i else 0 := by
  have hm1 : ¬ A.length = 1 := by omega
  have hm2 : ¬ A.length = 2 := by omega
  obtain ⟨hlen, hget⟩ := diffLoop_invariant A h3 (A.length / 2 - 1) (le_refl _)
  have hlb : min (A.length - 3) (A.length - 2 - 2 * (A.length / 2 - 1)) ≤ 1 := by
    omega
  simp only [differentiator, if_neg hm1, if_neg hm2]
  refine ⟨?_, ?_, ?_⟩
  · rw [List.length_set]
    exact hlen
  · rw [getD_set_self _ _ _ _ (by rw [hlen]; omega), diffSA_getD, hget 2]
    by_cases h4 : 4 ≤ A.length
    · rw [if_pos (by omega), if_pos h4]
    · rw [if_neg (by omega), if_neg h4]
  · intro i hi
    rw [getD_set_ne _ _ _ _ _ (by omega), hget i]
    by_cases hw : i ≤ A.length - 2
    · rw [if_pos (by omega), if_pos hw]
    · rw [if_neg (by omega), if_neg hw]

/-- C5 counterexample: for the coefficient vector `[0, 0, 1]` (the basis
polynomial T₂, with `m = 3`), `differentiator` returns the length-3 vector
`[0, 4, 0]` with a trailing zero entry, not the claimed length-`m-1`
derivative vector `b[0..m-2] = [0, 4]`. -/
theorem differentiator_counterexample :
    differentiator ([0, 0, 1] : List ℚ) = [0, 4, 0] ∧
    differentiator ([0, 0, 1] : List ℚ) ≠ [0, 4] ∧
    (differentiator ([0, 0, 1] : List ℚ)).length ≠ ([0, 0, 1] : List ℚ).length - 1 := by
  have h : differentiator ([0, 0, 1] : List ℚ) = [0, 4, 0] := by
    simp only [differentiator, diffSA]
    norm_num [List.range_succ]
    rfl
  refine ⟨h, by rw [h]; simp, by rw [h]; simp⟩

/-- C5 (amended): for a coefficient vector `a` of length `m` the one-step
differentiation operator returns `[0]` for `m = 1` and `[a[1]]` for
`m = 2`; for `m ≥ 3` it returns a vector of length `m` (not `m-1`: the
claimed derivative coefficients `b[0..m-2]` are followed by one trailing
zero entry) whose entries satisfy, with `s[k] = 2k·a[k]`:
`b[m-2] = s[m-1]`, `b[m-3] = s[m-2]` (for `m ≥ 4`),
`b[k] = s[k+1] + b[k+2]` for `1 ≤ k ≤ m-4`, and `b[0] = (s[1] + b[2])/2`. -/
theorem differentiator_recurrence (A : List ℚ) :
    (A.length = 1 → differentiator A = [0]) ∧
    (A.length = 2 → differentiator A = [A.getD 1 0]) ∧
    (3 ≤ A.length →
      (differentiator A).length = A.length ∧
      (differentiator A).getD (A.length - 1) 0 = 0 ∧
      (differentiator A).getD (A.length - 2) 0 =
        2 * ((A.length - 1 : ℕ) : ℚ) * A.getD (A.length - 1) 0 ∧
      (4 ≤ A.length → (differentiator A).getD (A.length - 3) 0 =
        2 * ((A.length - 2 : ℕ) : ℚ) * A.getD (A.length - 2) 0) ∧
      (∀ k, 1 ≤ k → k ≤ A.length - 4 →
        (differentiator A).getD k 0 =
          2 * ((k + 1 : ℕ) : ℚ) * A.getD (k + 1) 0 +
            (differentiator A).getD (k + 2) 0) ∧
      (differentiator A).getD 0 0 =
        (2 * (1 : ℚ) * A.getD 1 0 + (differentiator A).getD 2 0) * (1 / 2 : ℚ)) := by
  refine ⟨?_, ?_, ?_⟩
  · intro h1
    simp [differentiator, h1]
  · intro h2
    obtain ⟨a, b, rfl⟩ := List.length_eq_two.mp h2
    simp [differentiator]
  · intro h3
    obtain ⟨hlen, hget0, hget⟩ := differentiator_entries A h3
    refine ⟨hlen, ?_, ?_, ?_, ?_, ?_⟩
    · rw [hget _ (by omega), if_neg (by omega)]
    · rw [hget _ (by omega), if_pos (by omega), bClos_top A h3, sAfun]
    · intro h4
      rw [hget _ (by omega), if_pos (by omega), bClos_top2 A h3, sAfun]
    · intro k hk1 hk4
      rw [hget _ hk1, hget _ (by omega), if_pos (by omega), if_pos (by omega)]
      rw [bClos_rec A k (by omega), sAfun]
    · rw [hget0, hget 2 (by omega)]
      by_cases h4 : 4 ≤ A.length
      · rw [if_pos h4, if_pos (by omega), sAfun]
        norm_num
      · rw [if_neg h4, if_neg (by omega), sAfun]
        norm_num

/-- C5 witness: the amended recurrence applied to the concrete length-4
vector `[1, 2, 3, 4]`, checking the top entry relation `b[m-2] = s[m-1]`. -/
theorem differentiator_recurrence_witness :
    3 ≤ ([1, 2, 3, 4] : List ℚ).length ∧
    (differentiator ([1, 2, 3, 4] : List ℚ)).getD
        (([1, 2, 3, 4] : List ℚ).length - 2) 0 =
      2 * ((([1, 2, 3, 4] : List ℚ).length - 1 : ℕ) : ℚ) *
        ([1, 2, 3, 4] : List ℚ).getD (([1, 2, 3, 4] : List ℚ).length - 1) 0 :=
  ⟨by decide, (((differentiator_recurrence [1, 2, 3, 4]).2.2 (by decide)).2.2).1⟩

/-! ### Claim C1: NoConvergence behaviour of the dichotomy -/

theorem dichotomyGo_all_fail (f : ℝ → ℂ) (fReal : Bool) (raiseNC : Bool) :
    ∀ fuel k, 1 ≤ fuel → (∀ t, t < fuel → ¬ accepts f fReal (k + t)) →
      dichotomyGo f fReal raiseNC k fuel =
        (if raiseNC then
          Except.error (lastTwoAbs (trialCoeffs f fReal (k + fuel - 1)),
            threshold (maxAbs (trialCoeffs f fReal (k + fuel - 1))))
        else Except.ok (trialCoeffs f fReal (k + fuel - 1))) := by
  intro fuel
  induction fuel with
  | zero => intro k h; omega
  | succ m ih =>
    intro k _ hfail
    have hk0 : ¬ accepts f fReal k := by
      have := hfail 0 (by omega)
      simpa using this
    simp only [accepts] at hk0
    simp only [dichotomyGo]
    rw [if_neg hk0]
    by_cases hm : m = 0
    · subst hm
      rw [if_pos rfl, show k + 1 - 1 = k from by omega]
    · rw [if_neg hm]
      rw [ih (k + 1) (by omega) (fun t ht => by
        have := hfail (t + 1) (by omega)
        rwa [show k + (t + 1) = k + 1 + t from by omega] at this)]
      rw [show k + 1 + m - 1 = k + (m + 1) - 1 from by omega]

theorem dichotomyGo_exists_accept_ok (f : ℝ → ℂ) (fReal : Bool) (raiseNC : Bool) :
    ∀ fuel k, (∃ t, t < fuel ∧ accepts f fReal (k + t)) →
      ∃ c, dichotomyGo f fReal raiseNC k fuel = Except.ok c := by
  intro fuel
  induction fuel with
  | zero => intro k ⟨t, ht, _⟩; omega
  | succ m ih =>
    intro k ⟨t, ht, hacc⟩
    simp only [dichotomyGo]
    by_cases hk : accepts f fReal k
    · refine ⟨trialCoeffs f fReal k, ?_⟩
      have hk2 := hk
      simp only [accepts] at hk2
      rw [if_pos hk2]
    · have ht0 : t ≠ 0 := by
        intro hcon
        subst hcon
        simp only [Nat.add_zero] at hacc
        exact hk hacc
      have hm : m ≠ 0 := by omega
      obtain ⟨c, hc⟩ := ih (k + 1) ⟨t - 1, by omega, by
        rwa [show k + 1 + (t - 1) = k + t from by omega]⟩
      refine ⟨c, ?_⟩
      have hk2 := hk
      simp only [accepts] at hk2
      rw [if_neg hk2, if_neg hm]
      exact hc

/-- C1: for `kmin < kmax`, the dichotomy raises `NoConvergence` if and only
if `raise_no_convergence` is true and no trial exponent `k` in
`[kmin, kmax)` satisfies the acceptance test (the last two coefficient
magnitudes at most `128·emach·max|coeffs|`); a raised `NoConvergence`
carries the pair of residual magnitudes and the bound computed at the last
trial exponent `kmax - 1`; and with `raise_no_convergence` false an
exhausted range returns the coefficients of the last trial exponent. -/
theorem dichotomy_noconvergence_spec (f : ℝ → ℂ) (fReal : Bool)
    (kmin kmax : ℕ) (raiseNC : Bool) (hlt : kmin < kmax) :
    ((∃ e, dichotomy f fReal kmin kmax raiseNC = Except.error e) ↔
      (raiseNC = true ∧ ∀ k, kmin ≤ k → k < kmax → ¬ accepts f fReal k)) ∧
    (∀ e, dichotomy f fReal kmin kmax raiseNC = Except.error e →
      e = (lastTwoAbs (trialCoeffs f fReal (kmax - 1)),
        threshold (maxAbs (trialCoeffs f fReal (kmax - 1))))) ∧
    ((raiseNC = false ∧ ∀ k, kmin ≤ k → k < kmax → ¬ accepts f fReal k) →
      dichotomy f fReal kmin kmax raiseNC =
        Except.ok (trialCoeffs f fReal (kmax - 1))) := by
  have hfuel : 1 ≤ kmax - kmin := by omega
  have hidx : kmin + (kmax - kmin) - 1 = kmax - 1 := by omega
  have hall : (∀ t, t < kmax - kmin → ¬ accepts f fReal (kmin + t)) ↔
      (∀ k, kmin ≤ k → k < kmax → ¬ accepts f fReal k) := by
    constructor
    · intro hf k hk1 hk2
      have := hf (k - kmin) (by omega)
      rwa [show kmin + (k - kmin) = k from by omega] at this
    · intro hf t ht
      exact hf (kmin + t) (by omega) (by omega)
  refine ⟨⟨?_, ?_⟩, ?_, ?_⟩
  · rintro ⟨e, he⟩
    cases raiseNC with
    | false =>
      obtain ⟨c, hc⟩ := dichotomyGo_no_raise_ok f fReal (kmax - kmin) kmin hfuel
      rw [dichotomy] at he
      rw [hc] at he
      exact absurd he (by simp)
    | true =>
      refine ⟨rfl, hall.mp ?_⟩
      intro t ht
      intro hacc
      obtain ⟨c, hc⟩ := dichotomyGo_exists_accept_ok f fReal true (kmax - kmin) kmin
        ⟨t, ht, hacc⟩
      rw [dichotomy] at he
      rw [hc] at he
      exact absurd he (by simp)
  · rintro ⟨hraise, hfail⟩
    subst hraise
    rw [dichotomy, dichotomyGo_all_fail f fReal true (kmax - kmin) kmin hfuel
      (fun t ht => hall.mpr hfail t ht), if_pos rfl, hidx]
    exact ⟨_, rfl⟩
  · intro e he
    have hiff := he
    rw [dichotomy] at hiff
    cases raiseNC with
    | false =>
      obtain ⟨c, hc⟩ := dichotomyGo_no_raise_ok f fReal (kmax - kmin) kmin hfuel
      rw [hc] at hiff
      exact absurd hiff (by simp)
    | true =>
      have hnofind : ∀ t, t < kmax - kmin → ¬ accepts f fReal (kmin + t) := by
        intro t ht hacc
        obtain ⟨c, hc⟩ := dichotomyGo_exists_accept_ok f fReal true (kmax - kmin) kmin
          ⟨t, ht, hacc⟩
        rw [hc] at hiff
        exact absurd hiff (by simp)
      rw [dichotomyGo_all_fail f fReal true (kmax - kmin) kmin hfuel hnofind,
        if_pos rfl, hidx] at hiff
      exact (Except.error.injEq _ _ ).mp hiff.symm
  · rintro ⟨hraise, hfail⟩
    subst hraise
    rw [dichotomy, dichotomyGo_all_fail f fReal false (kmax - kmin) kmin hfuel
      (fun t ht => hall.mpr hfail t ht), if_neg Bool.false_ne_true, hidx]

/-- C1 witness: the specification applied to the constant zero function on
the concrete range `[2, 4)` with strict convergence requested. -/
theorem dichotomy_noconvergence_spec_witness :
    2 < 4 ∧ ((∃ e, dichotomy (fun _ => 0) true 2 4 true = Except.error e) ↔
      (true = true ∧ ∀ k, 2 ≤ k → k < 4 → ¬ accepts (fun _ => 0) true k)) :=
  ⟨by decide, (dichotomy_noconvergence_spec (fun _ => 0) true 2 4 true (by decide)).1⟩

/-! ### Claim C8: the root finder -/

theorem companionCoeffs_length (ai : List ℂ) (hne : ai ≠ []) :
    (companionCoeffs ai).length = 2 * ai.length - 1 := by
  have h1 : 1 ≤ ai.length := List.length_pos.mpr hne
  rw [companionCoeffs, updAt, List.length_set, List.length_append,
    List.length_reverse, List.length_drop]
  omega

theorem companionCoeffs_getD_lo (ai : List ℂ) (i : ℕ) (hi : i < ai.length - 1) :
    (companionCoeffs ai).getD i 0 = ai.getD (ai.length - 1 - i) 0 := by
  have h1 : 1 ≤ ai.length := by omega
  rw [companionCoeffs, updAt, getD_set_ne _ _ _ _ _ (by omega)]
  have hlt : i < (ai.reverse ++ ai.drop 1).length := by
    rw [List.length_append, List.length_reverse, List.length_drop]
    omega
  rw [List.getD_eq_getElem _ _ hlt,
    List.getElem_append_left (by rw [List.length_reverse]; omega),
    List.getElem_reverse, List.getD_eq_getElem _ _ (by omega)]

theorem companionCoeffs_getD_mid (ai : List ℂ) (hne : ai ≠ []) :
    (companionCoeffs ai).getD (ai.length - 1) 0 = ai.getD 0 0 * 2 := by
  have h1 : 1 ≤ ai.length := List.length_pos.mpr hne
  have hlt : ai.length - 1 < (ai.reverse ++ ai.drop 1).length := by
    rw [List.length_append, List.length_reverse, List.length_drop]
    omega
  rw [companionCoeffs, updAt, getD_set_self _ _ _ _ hlt]
  congr 1
  rw [List.getD_eq_getElem _ _ hlt,
    List.getElem_append_left (by rw [List.length_reverse]; omega),
    List.getElem_reverse, List.getD_eq_getElem _ _ (by omega)]
  congr 1
  omega

theorem companionCoeffs_getD_hi (ai : List ℂ) (i : ℕ)
    (hge : ai.length ≤ i) (hlt : i < 2 * ai.length - 1) :
    (companionCoeffs ai).getD i 0 = ai.getD (i - ai.length + 1) 0 := by
  have h1 : 1 ≤ ai.length := by omega
  rw [companionCoeffs, updAt, getD_set_ne _ _ _ _ _ (by omega)]
  have hlen : i < (ai.reverse ++ ai.drop 1).length := by
    rw [List.length_append, List.length_reverse, List.length_drop]
    omega
  rw [List.getD_eq_getElem _ _ hlen,
    List.getElem_append_right (by rw [List.length_reverse]; omega),
    List.getElem_drop, List.getD_eq_getElem _ _ (by omega)]
  congr 1
  rw [List.length_reverse]
  omega

theorem mem_rootsOfCoeffs (polyroots : List ℂ → List ℂ) (ai : List ℂ) (x : ℝ) :
    x ∈ rootsOfCoeffs polyroots ai ↔
      ∃ r ∈ polyroots (companionCoeffs ai),
        np_allclose_scalar (Complex.abs r) 1 ∧ x = r.re := by
  simp only [rootsOfCoeffs, np_unique, List.mem_insertionSort, List.mem_dedup,
    List.mem_map, List.mem_filter, decide_eq_true_eq]
  constructor
  · rintro ⟨r, ⟨hmem, hcl⟩, hre⟩
    exact ⟨r, hmem, hcl, hre.symm⟩
  · rintro ⟨r, hmem, hcl, hre⟩
    exact ⟨r, ⟨hmem, hcl⟩, hre.symm⟩

/-- C8 counterexample: with the coefficient series
`ai = [-(ρ + ρ⁻¹)/2, 1]` for `ρ = 1 + 2⁻²⁰`, the companion polynomial is
`1 - (ρ + ρ⁻¹)z + z²`, and `ρ` is certified to be one of its exact roots
(`polyEval = 0`).  Its modulus differs from `1` by `2⁻²⁰ ≈ 9.5·10⁻⁷`, which
exceeds the claimed tolerance `≈ 1e-8`, yet `roots` keeps it (numpy's
`allclose` tolerance is `atol + rtol = 1e-8 + 1e-5`). -/
theorem roots_tolerance_counterexample :
    polyEval
        (companionCoeffs [(-(((1 + 1/1048576 : ℝ) + (1 + 1/1048576 : ℝ)⁻¹) / 2 : ℝ) : ℂ), 1])
        (((1 + 1/1048576 : ℝ) : ℂ)) = 0 ∧
    ((1 + 1/1048576 : ℝ)) ∈ rootsOfCoeffs
        (fun _ => [((1 + 1/1048576 : ℝ) : ℂ)])
        [(-(((1 + 1/1048576 : ℝ) + (1 + 1/1048576 : ℝ)⁻¹) / 2 : ℝ) : ℂ), 1] ∧
    ¬ (|Complex.abs (((1 + 1/1048576 : ℝ) : ℂ)) - 1| ≤ 1 / 100000000) := by
  have hrho : (1 + 1/1048576 : ℝ) ≠ 0 := by norm_num
  have habs : Complex.abs (((1 + 1/1048576 : ℝ) : ℂ)) = 1 + 1/1048576 := by
    rw [Complex.abs_ofReal, abs_of_pos (by norm_num)]
  have hcs : companionCoeffs
      [(-(((1 + 1/1048576 : ℝ) + (1 + 1/1048576 : ℝ)⁻¹) / 2 : ℝ) : ℂ), 1] =
      [(1 : ℂ), (-(((1 + 1/1048576 : ℝ) + (1 + 1/1048576 : ℝ)⁻¹) / 2 : ℝ) : ℂ) * 2, 1] := by
    rfl
  refine ⟨?_, ?_, ?_⟩
  · rw [hcs, polyEval]
    show (1 : ℂ) * _ ^ 0 + (_ * 2 * _ ^ 1 + (1 * _ ^ 2 + 0)) = 0
    push_cast
    have hrhoc : ((1 : ℂ) + 1/1048576) ≠ 0 := by
      intro hcon
      apply hrho
      have := congrArg Complex.re hcon
      simpa using this
    field_simp
    ring
  · rw [mem_rootsOfCoeffs]
    refine ⟨((1 + 1/1048576 : ℝ) : ℂ), by simp, ?_, by simp⟩
    rw [np_allclose_scalar, habs, atol, rtol]
    rw [abs_of_nonneg (by norm_num), abs_of_nonneg (by norm_num)]
    norm_num
  · rw [habs]
    rw [abs_of_nonneg (by norm_num)]
    norm_num

/-- C8 (amended): `roots` keeps exactly those returned companion-polynomial
roots `r` with `np.allclose(|r|, 1)`, i.e. `||r| - 1| ≤ atol + rtol·|1| =
1e-8 + 1e-5` (about `1e-5`, not `1e-8`); it maps each survivor to `Re r`,
deduplicates and sorts, returns empty (never an error) when no root is
near the unit circle, and the companion coefficient sequence is the
palindrome `[a_{N-1}, ..., a_1, 2·a_0, a_1, ..., a_{N-1}]`. -/
theorem roots_spec (polyroots : List ℂ → List ℂ) (ai : List ℂ) (hne : ai ≠ []) :
    (∀ x : ℝ, x ∈ rootsOfCoeffs polyroots ai ↔
      ∃ r ∈ polyroots (companionCoeffs ai),
        np_allclose_scalar (Complex.abs r) 1 ∧ x = r.re) ∧
    (∀ a : ℝ, np_allclose_scalar a 1 ↔ |a - 1| ≤ 1/100000000 + 1/100000) ∧
    List.Sorted (fun a b : ℝ => a ≤ b) (rootsOfCoeffs polyroots ai) ∧
    (rootsOfCoeffs polyroots ai).Nodup ∧
    ((∀ r ∈ polyroots (companionCoeffs ai),
        ¬ np_allclose_scalar (Complex.abs r) 1) →
      rootsOfCoeffs polyroots ai = []) ∧
    (companionCoeffs ai).length = 2 * ai.length - 1 ∧
    (∀ i, i < ai.length - 1 →
      (companionCoeffs ai).getD i 0 = ai.getD (ai.length - 1 - i) 0) ∧
    (companionCoeffs ai).getD (ai.length - 1) 0 = ai.getD 0 0 * 2 ∧
    (∀ i, ai.length ≤ i → i < 2 * ai.length - 1 →
      (companionCoeffs ai).getD i 0 = ai.getD (i - ai.length + 1) 0) ∧
    (∀ f : Chebfun, Chebfun.roots polyroots f =
      rootsOfCoeffs polyroots f.chebyshev_coefficients) := by
  refine ⟨mem_rootsOfCoeffs polyroots ai, ?_, ?_, ?_, ?_,
    companionCoeffs_length ai hne,
    fun i hi => companionCoeffs_getD_lo ai i hi,
    companionCoeffs_getD_mid ai hne,
    fun i h1 h2 => companionCoeffs_getD_hi ai i h1 h2,
    fun f => rfl⟩
  · intro a
    rw [np_allclose_scalar, atol, rtol, abs_one, mul_one]
  · exact List.sorted_insertionSort _ _
  · exact ((List.perm_insertionSort _ _).nodup_iff).mpr (List.nodup_dedup _)
  · intro hfail
    simp only [rootsOfCoeffs]
    have hfil : (polyroots (companionCoeffs ai)).filter
        (fun r => decide (np_allclose_scalar (Complex.abs r) 1)) = [] := by
      rw [List.filter_eq_nil_iff]
      intro r hr
      simpa using hfail r hr
    rw [hfil]
    rfl

/-- C8 witness: the amended theorem applied to the coefficient series `[1]`
and an oracle returning no roots. -/
theorem roots_spec_witness :
    ([(1 : ℂ)] ≠ ([] : List ℂ)) ∧
    List.Sorted (fun a b : ℝ => a ≤ b) (rootsOfCoeffs (fun _ => []) [(1 : ℂ)]) :=
  ⟨by simp, (roots_spec (fun _ => []) [(1 : ℂ)] (by simp)).2.2.1⟩

/-! ### Claim C10: tolerance-based equality -/

theorem maxAbs_singleton (z : ℂ) : maxAbs [z] = Complex.abs z := by
  show max (Complex.abs z) ((List.map Complex.abs []).foldr max 0) = Complex.abs z
  simp [AbsoluteValue.nonneg]

/-- C10: equality of interpolants is tolerance-based: `f == g` holds iff
every Chebyshev coefficient of `f - g` has magnitude at most numpy's
`allclose` absolute tolerance `atol = 1e-8` (the comparand is `0`, so the
relative term vanishes); consequently two interpolants built from different
values can compare equal. -/
theorem eq_tolerance_spec :
    (∀ f g : Chebfun, Chebfun.eq f g ↔
      ∀ z ∈ (Chebfun.sub f g).chebyshev_coefficients, Complex.abs z ≤ atol) ∧
    (∃ f g : Chebfun, f.values ≠ g.values ∧ Chebfun.eq f g) := by
  have hunfold : ∀ f g : Chebfun, Chebfun.eq f g ↔
      ∀ z ∈ (Chebfun.sub f g).chebyshev_coefficients, Complex.abs z ≤ atol := by
    intro f g
    rw [Chebfun.eq, Chebfun.nonzero, not_not, np_allclose]
    constructor
    · intro h z hz
      have := h z hz
      simpa using this
    · intro h z hz
      have := h z hz
      simpa using this
  refine ⟨hunfold, ?_⟩
  set c : ℂ := ((1 + 1/1000000000 : ℝ) : ℂ) with hc
  refine ⟨Chebfun.ofValues [(1 : ℂ)] true, Chebfun.ofValues [c] true, ?_, ?_⟩
  · show [(1 : ℂ)] ≠ [c]
    intro hcon
    have h1 : (1 : ℂ) = c := by
      simpa using hcon
    have h2 : (1 : ℝ) = 1 + 1/1000000000 := by
      have h3 := congrArg Complex.re h1
      rw [hc, Complex.one_re, Complex.ofReal_re] at h3
      exact h3
    norm_num at h2
  · -- compute the coefficient list of the difference
    have hneg : (Chebfun.ofValues [c] true).neg = Chebfun.ofValues [-c] true := by
      show Chebfun.ofValues ([c].map (fun z => -z)) true = Chebfun.ofValues [-c] true
      simp
    have habs1 : Complex.abs (1 : ℂ) = 1 := map_one Complex.abs
    have habsc : Complex.abs (-c) = 1 + 1/1000000000 := by
      rw [map_neg_eq_map, hc, Complex.abs_ofReal, abs_of_pos (by norm_num)]
    have habsd : Complex.abs (1 + -c) = 1/1000000000 := by
      have hd : (1 : ℂ) + -c = ((-(1/1000000000) : ℝ) : ℂ) := by
        rw [hc]
        push_cast
        ring
      rw [hd, Complex.abs_ofReal]
      rw [abs_of_nonpos (by norm_num)]
      norm_num
    have hscale : max (Chebfun.ofValues [(1 : ℂ)] true).scale
        (Chebfun.ofValues [-c] true).scale = 1 + 1/1000000000 := by
      show max (maxAbs [(1 : ℂ)]) (maxAbs [-c]) = _
      rw [maxAbs_singleton, maxAbs_singleton, habs1, habsc]
      rw [max_eq_right (by norm_num)]
    have hcut : cutoff [(1 : ℂ) + -c] (1 + 1/1000000000) = 0 + 1 := by
      apply cutoff_qualifying
      · simp
      · rw [List.getD_cons_zero, habsd, threshold, emach]
        norm_num
      · intro j hj1 hj2
        simp only [List.length_singleton] at hj2
        omega
    have hsubeq : Chebfun.sub (Chebfun.ofValues [(1 : ℂ)] true)
        (Chebfun.ofValues [c] true) =
        Chebfun.ofValuesScale (chebpolyval
          (prunedCoeffs [(1 : ℂ) + -c] (1 + 1/1000000000)) true) true
          (1 + 1/1000000000) := by
      rw [Chebfun.sub, hneg, Chebfun.add]
      simp only [Chebfun.size, Chebfun.ofValues, List.length_singleton, gt_iff_lt,
        lt_self_iff_false, if_false, Chebfun.chebyshev_coefficients, chebpolyfit,
        eq_self_iff_true, if_true, Nat.sub_self, List.replicate_zero,
        List.append_nil, List.zipWith_cons_cons, List.zipWith_nil_right,
        Chebfun.from_chebcoeff, Bool.and_self]
      rw [show max (maxAbs [(1 : ℂ)]) (maxAbs [-c]) = 1 + 1/1000000000 from hscale]
    have hpruned : prunedCoeffs [(1 : ℂ) + -c] (1 + 1/1000000000) = [(1 : ℂ) + -c] := by
      rw [prunedCoeffs, hcut]
      rfl
    have hval : chebpolyval [(1 : ℂ) + -c] true = [(1 : ℂ) + -c] := by
      rw [chebpolyval]
      simp
    rw [hunfold, hsubeq]
    show ∀ z ∈ chebpolyfit (chebpolyval
        (prunedCoeffs [(1 : ℂ) + -c] (1 + 1/1000000000)) true) true,
      Complex.abs z ≤ atol
    rw [hpruned, hval]
    intro z hz
    rw [List.mem_singleton.mp hz, habsd, atol]
    norm_num

/-! ### Discrete Fourier analysis of the transforms (for C4 and C7) -/

theorem eU_add (L : ℕ) (a b : ℤ) : eU L (a + b) = eU L a * eU L b := by
  rw [eU, eU, eU, ← Complex.exp_add]
  congr 1
  push_cast
  ring

theorem eU_zero (L : ℕ) : eU L 0 = 1 := by
  simp [eU]

theorem eU_pow (L : ℕ) (d : ℤ) (n : ℕ) : eU L ((n : ℤ) * d) = eU L d ^ n := by
  induction n with
  | zero => simpa using eU_zero L
  | succ m ih =>
    have h1 : ((m + 1 : ℕ) : ℤ) * d = (m : ℤ) * d + d := by push_cast; ring
    rw [h1, eU_add, ih, pow_succ]

theorem eU_mul_self (L : ℕ) (hL : L ≠ 0) (n : ℤ) : eU L ((L : ℤ) * n) = 1 := by
  rw [eU]
  have h1 : 2 * (Real.pi : ℂ) * Complex.I * (((L : ℤ) * n : ℤ) : ℂ) / (L : ℕ) =
      (n : ℂ) * (2 * Real.pi * Complex.I) := by
    have hL0 : ((L : ℕ) : ℂ) ≠ 0 := Nat.cast_ne_zero.mpr hL
    field_simp
    ring
  rw [h1, Complex.exp_int_mul_two_pi_mul_I]

theorem eU_conj (L : ℕ) (d : ℤ) : (starRingEnd ℂ) (eU L d) = eU L (-d) := by
  rw [eU, eU, ← Complex.exp_conj]
  congr 1
  rw [map_div₀]
  push_cast
  simp only [map_mul, Complex.conj_I, Complex.conj_ofReal, map_ofNat,
    map_intCast, map_natCast]
  ring

theorem eU_geom_sum (L : ℕ) (hL : 0 < L) (d : ℤ) :
    ∑ j ∈ Finset.range L, eU L ((j : ℤ) * d) = if (L : ℤ) ∣ d then (L : ℂ) else 0 := by
  by_cases hdvd : (L : ℤ) ∣ d
  · obtain ⟨m, rfl⟩ := hdvd
    have h1 : ∀ j ∈ Finset.range L, eU L ((j : ℤ) * ((L : ℤ) * m)) = 1 := by
      intro j _
      rw [eU_pow, eU_mul_self L hL.ne' m, one_pow]
    rw [Finset.sum_congr rfl h1, if_pos ⟨m, rfl⟩]
    simp
  · have hne : eU L d ≠ 1 := by
      intro hcon
      rw [eU, Complex.exp_eq_one_iff] at hcon
      obtain ⟨n, hn⟩ := hcon
      apply hdvd
      have hL0 : ((L : ℕ) : ℂ) ≠ 0 := Nat.cast_ne_zero.mpr hL.ne'
      have hpi : (2 * (Real.pi : ℂ) * Complex.I) ≠ 0 := by
        simp [Real.pi_ne_zero, Complex.I_ne_zero, Complex.ofReal_ne_zero]
      have h2 : (d : ℂ) = (n : ℂ) * L := by
        apply mul_left_cancel₀ hpi
        rw [div_eq_iff hL0] at hn
        rw [show 2 * (Real.pi : ℂ) * Complex.I * ((n : ℂ) * L) =
          (n : ℂ) * (2 * Real.pi * Complex.I) * L from by ring]
        exact hn
      have h3 : d = n * (L : ℤ) := by exact_mod_cast h2
      exact ⟨n, by rw [h3]; ring⟩
    have hterms : ∀ j ∈ Finset.range L, eU L ((j : ℤ) * d) = eU L d ^ j :=
      fun j _ => eU_pow L d j
    rw [Finset.sum_congr rfl hterms, geom_sum_eq hne, if_neg hdvd]
    have hLpow : eU L d ^ L = 1 := by
      rw [← eU_pow, show ((L : ℕ) : ℤ) * d = (L : ℤ) * d from rfl,
        eU_mul_self L hL.ne' d]
    rw [hLpow]
    simp

theorem eU_dvd_zero (L : ℕ) (_hL : 0 < L) (a b : ℕ) (ha : a < L) (hb : b < L)
    (hdvd : (L : ℤ) ∣ ((a : ℤ) - b)) : a = b := by
  have h0 : ((a : ℤ) - b) = 0 := by
    apply Int.eq_zero_of_abs_lt_dvd hdvd
    rw [abs_sub_lt_iff]
    constructor <;> omega
  omega

/-- The unnormalised discrete Fourier transform of an index function, the
mathematical content of the `fft` column sums. -/
noncomputable def Ffun (e : ℕ → ℂ) (L : ℕ) (j : ℕ) : ℂ :=
  ∑ m ∈ Finset.range L, e m * eU L (-((j : ℤ) * m))

/-- The unnormalised inverse transform sum, the mathematical content of the
`ifft` column sums. -/
noncomputable def Gfun (d : ℕ → ℂ) (L : ℕ) (k : ℕ) : ℂ :=
  ∑ j ∈ Finset.range L, d j * eU L ((k : ℤ) * j)

theorem dft_inversionA (L : ℕ) (hL : 0 < L) (e : ℕ → ℂ) (k : ℕ) (hk : k < L) :
    Gfun (fun j => Ffun e L j) L k = (L : ℂ) * e k := by
  rw [Gfun]
  have h1 : ∀ j ∈ Finset.range L,
      Ffun e L j * eU L ((k : ℤ) * j) =
      ∑ m ∈ Finset.range L, e m * eU L ((j : ℤ) * ((k : ℤ) - m)) := by
    intro j _
    rw [Ffun, Finset.sum_mul]
    refine Finset.sum_congr rfl fun m _ => ?_
    rw [mul_assoc, ← eU_add]
    congr 1
    ring_nf
  rw [Finset.sum_congr rfl h1, Finset.sum_comm]
  have h2 : ∀ m ∈ Finset.range L,
      ∑ j ∈ Finset.range L, e m * eU L ((j : ℤ) * ((k : ℤ) - m)) =
      e m * (if (L : ℤ) ∣ ((k : ℤ) - m) then (L : ℂ) else 0) := by
    intro m _
    rw [← Finset.mul_sum, eU_geom_sum L hL]
  rw [Finset.sum_congr rfl h2, Finset.sum_eq_single k]
  · rw [if_pos (by simp), mul_comm]
  · intro m hm hne
    rw [if_neg, mul_zero]
    intro hdvd
    exact hne (eU_dvd_zero L hL m k (Finset.mem_range.mp hm) hk
      (by simpa using (dvd_neg.mpr hdvd)))
  · intro hk'
    exact absurd (Finset.mem_range.mpr hk) hk'

theorem dft_inversionB (L : ℕ) (hL : 0 < L) (d : ℕ → ℂ) (j : ℕ) (hj : j < L) :
    Ffun (fun k => Gfun d L k) L j = (L : ℂ) * d j := by
  rw [Ffun]
  have h1 : ∀ k ∈ Finset.range L,
      Gfun d L k * eU L (-((j : ℤ) * k)) =
      ∑ i ∈ Finset.range L, d i * eU L ((k : ℤ) * ((i : ℤ) - j)) := by
    intro k _
    rw [Gfun, Finset.sum_mul]
    refine Finset.sum_congr rfl fun i _ => ?_
    rw [mul_assoc, ← eU_add]
    congr 1
    ring_nf
  rw [Finset.sum_congr rfl h1, Finset.sum_comm]
  have h2 : ∀ i ∈ Finset.range L,
      ∑ k ∈ Finset.range L, d i * eU L ((k : ℤ) * ((i : ℤ) - j)) =
      d i * (if (L : ℤ) ∣ ((i : ℤ) - j) then (L : ℂ) else 0) := by
    intro i _
    rw [← Finset.mul_sum, eU_geom_sum L hL]
  rw [Finset.sum_congr rfl h2, Finset.sum_eq_single j]
  · rw [if_pos (by simp), mul_comm]
  · intro i hi hne
    rw [if_neg, mul_zero]
    intro hdvd
    exact hne (eU_dvd_zero L hL i j (Finset.mem_range.mp hi) hj hdvd)
  · intro hj'
    exact absurd (Finset.mem_range.mpr hj) hj'

/-- Reindexing the sum of a symmetric index function against the conjugate
character: `Σ e(m)·ω^{jm} = Σ e(m)·ω^{-jm}` when `e (L-m) = e m`. -/
theorem sum_eU_swap (L : ℕ) (hL : 0 < L) (e : ℕ → ℂ)
    (hsym : ∀ m, 1 ≤ m → m < L → e (L - m) = e m) (j : ℕ) :
    ∑ m ∈ Finset.range L, e m * eU L ((j : ℤ) * m) =
    ∑ m ∈ Finset.range L, e m * eU L (-((j : ℤ) * m)) := by
  obtain ⟨P, rfl⟩ : ∃ P, L = P + 1 := ⟨L - 1, by omega⟩
  rw [Finset.sum_range_succ', Finset.sum_range_succ']
  congr 1
  rw [← Finset.sum_range_reflect]
  refine Finset.sum_congr rfl fun i hi => ?_
  have hiP : i < P := Finset.mem_range.mp hi
  have hidx : P - 1 - i + 1 = P + 1 - (i + 1) := by omega
  rw [hidx, hsym (i + 1) (by omega) (by omega)]
  congr 1
  have hcast : ((P + 1 - (i + 1) : ℕ) : ℤ) = ((P + 1 : ℕ) : ℤ) - ((i + 1 : ℕ) : ℤ) := by
    push_cast
    omega
  rw [hcast, show (j : ℤ) * (((P + 1 : ℕ) : ℤ) - ((i + 1 : ℕ) : ℤ)) =
    ((P + 1 : ℕ) : ℤ) * j + -((j : ℤ) * ((i + 1 : ℕ) : ℤ)) from by ring]
  rw [eU_add, eU_mul_self (P + 1) (by omega) j, one_mul]

/-! ### List-level bridges between the transforms and their index sums -/

theorem even_data_length (l : List ℂ) :
    (even_data l).length = l.length + (l.length - 2) := by
  rw [even_data, List.length_append, List.length_reverse, List.length_dropLast,
    List.length_drop]
  omega

theorem even_data_getD_lo (l : List ℂ) (m : ℕ) (hm : m < l.length) :
    (even_data l).getD m 0 = l.getD m 0 := by
  rw [even_data]
  have h1 : m < (l ++ ((l.drop 1).dropLast).reverse).length := by
    rw [List.length_append]
    omega
  rw [List.getD_eq_getElem _ _ h1, List.getElem_append_left hm,
    List.getD_eq_getElem _ _ hm]

theorem even_data_getD_hi (l : List ℂ) (m : ℕ) (h2 : 2 ≤ l.length)
    (hge : l.length ≤ m) (hlt : m < 2 * l.length - 2) :
    (even_data l).getD m 0 = l.getD (2 * l.length - 2 - m) 0 := by
  rw [even_data]
  have h1 : m < (l ++ ((l.drop 1).dropLast).reverse).length := by
    rw [List.length_append, List.length_reverse, List.length_dropLast,
      List.length_drop]
    omega
  rw [List.getD_eq_getElem _ _ h1,
    List.getElem_append_right (le_of_eq_of_le rfl hge), List.getElem_reverse,
    List.getElem_dropLast, List.getElem_drop,
    List.getD_eq_getElem _ _ (by omega)]
  congr 1
  have h3 : ((l.drop 1).dropLast).length = l.length - 2 := by
    rw [List.length_dropLast, List.length_drop]
    omega
  simp only [List.length_reverse, h3]
  omega

theorem even_data_sym (l : List ℂ) (h2 : 2 ≤ l.length) (m : ℕ) (h1 : 1 ≤ m)
    (hlt : m < 2 * l.length - 2) :
    (even_data l).getD (2 * l.length - 2 - m) 0 = (even_data l).getD m 0 := by
  by_cases hm : m < l.length
  · by_cases hm2 : m ≤ l.length - 2
    · rw [even_data_getD_hi l _ h2 (by omega) (by omega), even_data_getD_lo l m hm]
      congr 1
      omega
    · have hfix : 2 * l.length - 2 - m = m := by omega
      rw [hfix]
  · rw [even_data_getD_lo l _ (by omega),
      even_data_getD_hi l m h2 (by omega) hlt]

theorem mem_even_data (l : List ℂ) (z : ℂ) (hz : z ∈ even_data l) : z ∈ l := by
  rw [even_data, List.mem_append] at hz
  rcases hz with h | h
  · exact h
  · rw [List.mem_reverse] at h
    exact List.drop_subset 1 l (List.dropLast_subset _ h)

theorem fft_length (l : List ℂ) : (fft l).length = l.length := by
  rw [fft, List.length_ofFn]

theorem ifft_length (l : List ℂ) : (ifft l).length = l.length := by
  rw [ifft, List.length_ofFn]

theorem fft_getD (l : List ℂ) (j : ℕ) (hj : j < l.length) :
    (fft l).getD j 0 = Ffun (fun m => l.getD m 0) l.length j := by
  rw [fft, getD_ofFn_lt _ j hj, Ffun]
  refine Finset.sum_congr rfl fun m _ => ?_
  congr 2

theorem ifft_getD (l : List ℂ) (j : ℕ) (hj : j < l.length) :
    (ifft l).getD j 0 = Gfun (fun m => l.getD m 0) l.length j / l.length := by
  rw [ifft, getD_ofFn_lt _ j hj, Gfun]
  congr 1

theorem mem_fft (l : List ℂ) (z : ℂ) (hz : z ∈ fft l) :
    ∃ j, j < l.length ∧ z = Ffun (fun m => l.getD m 0) l.length j := by
  rw [fft, List.mem_ofFn] at hz
  obtain ⟨⟨j, hj⟩, hje⟩ := hz
  refine ⟨j, hj, ?_⟩
  rw [← hje, Ffun]
  refine Finset.sum_congr rfl fun m _ => ?_
  congr 2

theorem getD_take_lt {α : Type} (l : List α) (n j : ℕ) (d : α) (hj : j < n)
    (hlen : j < l.length) : (l.take n).getD j d = l.getD j d := by
  rw [List.getD_eq_getElem _ _ (by simp [List.length_take]; omega),
    List.getElem_take, List.getD_eq_getElem _ _ hlen]

theorem getD_map_zero (l : List ℂ) (f : ℂ → ℂ) (hf : f 0 = 0) (j : ℕ) :
    (l.map f).getD j 0 = f (l.getD j 0) := by
  by_cases hj : j < l.length
  · rw [List.getD_eq_getElem _ _ (by simpa using hj), List.getElem_map,
      List.getD_eq_getElem _ _ hj]
  · rw [List.getD_eq_default _ _ (by simpa using le_of_not_lt hj),
      List.getD_eq_default _ _ (le_of_not_lt hj), hf]

theorem map_recast_of_real (l : List ℂ) (h : ∀ z ∈ l, z.im = 0) :
    l.map (fun z => ((z.re : ℝ) : ℂ)) = l := by
  have hcongr := List.map_congr_left (l := l) (f := fun z => ((z.re : ℝ) : ℂ))
    (g := id) (fun a ha => Complex.ext rfl (by simp [h a ha]))
  rw [hcongr, List.map_id]

theorem getD_im_zero (l : List ℂ) (h : ∀ z ∈ l, z.im = 0) (m : ℕ) :
    (l.getD m 0).im = 0 := by
  by_cases hm : m < l.length
  · rw [List.getD_eq_getElem _ _ hm]
    exact h _ (List.getElem_mem hm)
  · rw [List.getD_eq_default _ _ (le_of_not_lt hm)]
    simp

theorem im_zero_div (x y : ℂ) (hx : x.im = 0) (hy : y.im = 0) : (x / y).im = 0 := by
  rw [Complex.div_im, hx, hy]
  simp

theorem im_zero_mul (x y : ℂ) (hx : x.im = 0) (hy : y.im = 0) : (x * y).im = 0 := by
  rw [Complex.mul_im, hx, hy]
  simp

theorem dctPre_length (data : List ℂ) (h2 : 2 ≤ data.length) :
    (dctPre data).length = data.length / 2 + 1 := by
  simp only [dctPre, updAt, List.length_set, List.length_map, List.length_take,
    fft_length]
  omega

theorem dctPre_getD (data : List ℂ) (j : ℕ) (h2 : 2 ≤ data.length)
    (hj : j ≤ data.length / 2) :
    (dctPre data).getD j 0 =
      if j = 0 ∨ j = data.length / 2
      then (fft data).getD j 0 / ((data.length / 2 : ℕ) : ℂ) / 2
      else (fft data).getD j 0 / ((data.length / 2 : ℕ) : ℂ) := by
  have hN1 : 1 ≤ data.length / 2 := by omega
  have hNlt : data.length / 2 + 1 ≤ data.length := by omega
  simp only [dctPre]
  have hf2len : (((fft data).take (data.length / 2 + 1)).map
      (fun z => z / ((data.length / 2 : ℕ) : ℂ))).length = data.length / 2 + 1 := by
    rw [List.length_map, List.length_take, fft_length]
    omega
  have hf3len : (updAt (((fft data).take (data.length / 2 + 1)).map
      (fun z => z / ((data.length / 2 : ℕ) : ℂ))) 0 (fun z => z / 2)).length =
      data.length / 2 + 1 := by
    rw [updAt, List.length_set, hf2len]
  rw [hf3len, Nat.add_sub_cancel]
  have hf2getD : ∀ i, i ≤ data.length / 2 →
      (((fft data).take (data.length / 2 + 1)).map
        (fun z => z / ((data.length / 2 : ℕ) : ℂ))).getD i 0 =
      (fft data).getD i 0 / ((data.length / 2 : ℕ) : ℂ) := by
    intro i hi
    rw [getD_map_zero _ (fun z => z / ((data.length / 2 : ℕ) : ℂ)) (zero_div _) i,
      getD_take_lt _ _ _ _ (by omega) (by rw [fft_length]; omega)]
  by_cases hj0 : j = 0
  · subst hj0
    rw [updAt, getD_set_ne _ _ _ _ _ (by omega), updAt,
      getD_set_self _ _ _ _ (by rw [hf2len]; omega)]
    rw [hf2getD 0 (by omega), if_pos (Or.inl rfl)]
  · by_cases hjN : j = data.length / 2
    · subst hjN
      rw [updAt, getD_set_self _ _ _ _ (by rw [hf3len]; omega)]
      rw [updAt, getD_set_ne _ _ _ _ _ (by omega)]
      rw [hf2getD _ (le_refl _), if_pos (Or.inr rfl)]
    · rw [updAt, getD_set_ne _ _ _ _ _ (fun hcon => hjN hcon.symm), updAt,
        getD_set_ne _ _ _ _ _ (fun hcon => hj0 hcon.symm)]
      rw [hf2getD j hj, if_neg (by tauto)]

theorem valData_length (a : List ℂ) :
    (valData a).length = a.length + (a.length - 2) := by
  simp only [valData, updAt, List.length_set, List.length_map, even_data_length]

theorem valData_getD_zero (a : List ℂ) (h2 : 2 ≤ a.length) :
    (valData a).getD 0 0 = a.getD 0 0 := by
  simp only [valData]
  rw [updAt, getD_set_ne _ _ _ _ _ (by omega), updAt,
    getD_set_self _ _ _ _ (by rw [List.length_map, even_data_length]; omega)]
  rw [getD_map_zero _ (fun z => z / 2) (zero_div _) 0,
    even_data_getD_lo a 0 (by omega)]
  exact div_mul_cancel₀ _ two_ne_zero

theorem valData_getD_last (a : List ℂ) (h2 : 2 ≤ a.length) :
    (valData a).getD (a.length - 1) 0 = a.getD (a.length - 1) 0 := by
  simp only [valData]
  rw [updAt, getD_set_self _ _ _ _ (by
    rw [updAt, List.length_set, List.length_map, even_data_length]; omega)]
  rw [updAt, getD_set_ne _ _ _ _ _ (by omega)]
  rw [getD_map_zero _ (fun z => z / 2) (zero_div _) _,
    even_data_getD_lo a _ (by omega)]
  exact div_mul_cancel₀ _ two_ne_zero

theorem valData_getD_midlo (a : List ℂ) (h2 : 2 ≤ a.length) (j : ℕ)
    (h1 : 1 ≤ j) (hj : j ≤ a.length - 2) :
    (valData a).getD j 0 = a.getD j 0 / 2 := by
  simp only [valData]
  rw [updAt, getD_set_ne _ _ _ _ _ (by omega), updAt,
    getD_set_ne _ _ _ _ _ (by omega)]
  rw [getD_map_zero _ (fun z => z / 2) (zero_div _) j,
    even_data_getD_lo a j (by omega)]

theorem valData_getD_hi (a : List ℂ) (h2 : 2 ≤ a.length) (j : ℕ)
    (hj1 : a.length ≤ j) (hj2 : j < 2 * a.length - 2) :
    (valData a).getD j 0 = a.getD (2 * a.length - 2 - j) 0 / 2 := by
  simp only [valData]
  rw [updAt, getD_set_ne _ _ _ _ _ (by omega), updAt,
    getD_set_ne _ _ _ _ _ (by omega)]
  rw [getD_map_zero _ (fun z => z / 2) (zero_div _) j,
    even_data_getD_hi a j h2 hj1 hj2]

theorem valPre_length (a : List ℂ) (_h2 : 2 ≤ a.length) :
    (valPre a).length = a.length := by
  simp only [valPre, List.length_take, List.length_map, ifft_length,
    valData_length]
  omega

theorem valPre_getD (a : List ℂ) (_h2 : 2 ≤ a.length) (k : ℕ) (hk : k < a.length) :
    (valPre a).getD k 0 =
      2 * ((a.length : ℂ) - 1) * ((ifft (valData a)).getD k 0) := by
  rw [valPre, getD_take_lt _ _ _ _ hk (by
      rw [List.length_map, ifft_length, valData_length]
      omega),
    getD_map_zero _ (fun z => 2 * ((a.length : ℂ) - 1) * z) (by ring) k]

theorem chebpolyfit_length (v : List ℂ) (b : Bool) (h1 : 1 ≤ v.length) :
    (chebpolyfit v b).length = v.length := by
  by_cases h : v.length = 1
  · rw [chebpolyfit, if_pos h]
  · have h2 : 2 ≤ v.length := by omega
    have hpre : (dctPre (even_data v)).length = v.length := by
      rw [dctPre_length _ (by rw [even_data_length]; omega), even_data_length]
      omega
    rw [chebpolyfit, if_neg h, dct]
    cases b
    · simpa using hpre
    · simp [hpre]

theorem chebpolyval_length (a : List ℂ) (b : Bool) (h1 : 1 ≤ a.length) :
    (chebpolyval a b).length = a.length := by
  by_cases h : a.length = 1
  · rw [chebpolyval, if_pos h]
  · have h2 : 2 ≤ a.length := by omega
    rw [chebpolyval, if_neg h]
    cases b
    · simpa using valPre_length a h2
    · simp [valPre_length a h2]

theorem Ffun_shift (e : ℕ → ℂ) (L j : ℕ) (hL : 0 < L) (hj : j ≤ L) :
    Ffun e L (L - j) = ∑ m ∈ Finset.range L, e m * eU L ((j : ℤ) * m) := by
  rw [Ffun]
  refine Finset.sum_congr rfl fun m _ => ?_
  congr 1
  have hcast : ((L - j : ℕ) : ℤ) = (L : ℤ) - j := by omega
  rw [show -(((L - j : ℕ) : ℤ) * m) = (j : ℤ) * m + (L : ℤ) * (-(m : ℤ)) from by
    rw [hcast]; ring]
  rw [eU_add, eU_mul_self L hL.ne', mul_one]

theorem Gfun_shift (d : ℕ → ℂ) (L k : ℕ) (hL : 0 < L) (hk : k ≤ L) :
    Gfun d L (L - k) = ∑ j ∈ Finset.range L, d j * eU L (-((k : ℤ) * j)) := by
  rw [Gfun]
  refine Finset.sum_congr rfl fun j _ => ?_
  congr 1
  have hcast : ((L - k : ℕ) : ℤ) = (L : ℤ) - k := by omega
  rw [show ((L - k : ℕ) : ℤ) * j = -((k : ℤ) * j) + (L : ℤ) * (j : ℤ) from by
    rw [hcast]; ring]
  rw [eU_add, eU_mul_self L hL.ne', mul_one]

theorem Ffun_sym (e : ℕ → ℂ) (L : ℕ) (hL : 0 < L)
    (hsym : ∀ m, 1 ≤ m → m < L → e (L - m) = e m) (j : ℕ) (hj : j ≤ L) :
    Ffun e L (L - j) = Ffun e L j := by
  rw [Ffun_shift e L j hL hj, sum_eU_swap L hL e hsym j, Ffun]

theorem Gfun_sym (d : ℕ → ℂ) (L : ℕ) (hL : 0 < L)
    (hsym : ∀ m, 1 ≤ m → m < L → d (L - m) = d m) (k : ℕ) (hk : k ≤ L) :
    Gfun d L (L - k) = Gfun d L k := by
  rw [Gfun_shift d L k hL hk, ← sum_eU_swap L hL d hsym k, Gfun]

theorem Ffun_im_zero (e : ℕ → ℂ) (L : ℕ) (hL : 0 < L)
    (hreal : ∀ m, (e m).im = 0)
    (hsym : ∀ m, 1 ≤ m → m < L → e (L - m) = e m) (j : ℕ) :
    (Ffun e L j).im = 0 := by
  rw [← Complex.conj_eq_iff_im]
  rw [Ffun, map_sum]
  have h1 : ∀ m ∈ Finset.range L,
      (starRingEnd ℂ) (e m * eU L (-((j : ℤ) * m))) = e m * eU L ((j : ℤ) * m) := by
    intro m _
    rw [map_mul, eU_conj, neg_neg, Complex.conj_eq_iff_im.mpr (hreal m)]
  rw [Finset.sum_congr rfl h1, sum_eU_swap L hL e hsym j]

theorem Gfun_im_zero (d : ℕ → ℂ) (L : ℕ) (hL : 0 < L)
    (hreal : ∀ j, (d j).im = 0)
    (hsym : ∀ m, 1 ≤ m → m < L → d (L - m) = d m) (k : ℕ) :
    (Gfun d L k).im = 0 := by
  rw [← Complex.conj_eq_iff_im]
  rw [Gfun, map_sum]
  have h1 : ∀ j ∈ Finset.range L,
      (starRingEnd ℂ) (d j * eU L ((k : ℤ) * j)) = d j * eU L (-((k : ℤ) * j)) := by
    intro j _
    rw [map_mul, eU_conj, Complex.conj_eq_iff_im.mpr (hreal j)]
  rw [Finset.sum_congr rfl h1, ← sum_eU_swap L hL d hsym k]

theorem recast_of_im_zero (z : ℂ) (h : z.im = 0) : ((z.re : ℝ) : ℂ) = z :=
  Complex.ext rfl (by simp [h])

/-! ### Claim C4: the transform round trip -/

/-- C4: in the exact-arithmetic embedding, the inverse transform undoes the
forward transform on every sample vector: `chebpolyval (chebpolyfit v) = v`,
including the degenerate length-1 case, where both transforms return their
input unchanged; for a real dtype (`b = true`, values with vanishing
imaginary part) the intermediate imaginary-residue casts are the identity. -/
theorem chebpolyfit_roundtrip (v : List ℂ) (b : Bool) (h1 : 1 ≤ v.length)
    (hreal : b = true → ∀ z ∈ v, z.im = 0) :
    chebpolyval (chebpolyfit v b) b = v := by
  by_cases hM1 : v.length = 1
  · rw [chebpolyfit, if_pos hM1, chebpolyval, if_pos hM1]
  have h2 : 2 ≤ v.length := by omega
  set M := v.length with hM
  set L := 2 * M - 2 with hLdef
  have hL0 : 0 < L := by omega
  set ev : ℕ → ℂ := fun m => (even_data v).getD m 0 with hev
  have helen : (even_data v).length = L := by rw [even_data_length]; omega
  have hsym : ∀ m, 1 ≤ m → m < L → ev (L - m) = ev m := by
    intro m hm1 hm2
    show (even_data v).getD (L - m) 0 = (even_data v).getD m 0
    have hs := even_data_sym v h2 m hm1 (by omega)
    rwa [show 2 * v.length - 2 = L from by rw [← hM]] at hs
  have hevim : b = true → ∀ m, (ev m).im = 0 := fun hb m =>
    getD_im_zero _ (fun z hz => hreal hb z (mem_even_data v z hz)) m
  have hF : ∀ j, j < L → (fft (even_data v)).getD j 0 = Ffun ev L j := by
    intro j hj
    rw [fft_getD _ j (by rw [helen]; exact hj), helen]
  -- the coefficient list
  set a : List ℂ := chebpolyfit v b with ha
  have haeq : a = dct (even_data v) b := by rw [ha, chebpolyfit, if_neg hM1]
  have halen : a.length = M := by rw [ha]; exact chebpolyfit_length v b (by omega)
  have hN2 : (even_data v).length / 2 = M - 1 := by rw [helen]; omega
  have hdctpre_getD : ∀ j, j ≤ M - 1 → (dctPre (even_data v)).getD j 0 =
      (if j = 0 ∨ j = M - 1 then Ffun ev L j / ((M - 1 : ℕ) : ℂ) / 2
       else Ffun ev L j / ((M - 1 : ℕ) : ℂ)) := by
    intro j hj
    rw [dctPre_getD _ j (by rw [helen]; omega) (by rw [hN2]; exact hj), hN2,
      hF j (by omega)]
  have ha_getD : ∀ j, j ≤ M - 1 → a.getD j 0 =
      (if j = 0 ∨ j = M - 1 then Ffun ev L j / ((M - 1 : ℕ) : ℂ) / 2
       else Ffun ev L j / ((M - 1 : ℕ) : ℂ)) := by
    intro j hj
    rw [haeq, dct]
    cases b with
    | false =>
      simp only [Bool.false_eq_true, if_false]
      exact hdctpre_getD j hj
    | true =>
      rw [if_pos rfl, getD_map_zero _ (fun z => ((z.re : ℝ) : ℂ)) (by simp) j]
      have hFj : (Ffun ev L j).im = 0 :=
        Ffun_im_zero ev L hL0 (hevim rfl) hsym j
      have him : ((dctPre (even_data v)).getD j 0).im = 0 := by
        rw [hdctpre_getD j hj]
        split_ifs
        · exact im_zero_div _ _ (im_zero_div _ _ hFj (by simp)) (by simp)
        · exact im_zero_div _ _ hFj (by simp)
      rw [recast_of_im_zero _ him, hdctpre_getD j hj]
  -- the even-extended rescaled coefficient data equals F / L
  have hMC : ((M : ℕ) : ℂ) - 1 = ((M - 1 : ℕ) : ℂ) := by
    have : ((M - 1 : ℕ) : ℂ) = (M : ℂ) - 1 := by
      push_cast [Nat.cast_sub (by omega : 1 ≤ M)]
      ring
    rw [this]
  have hLC : ((L : ℕ) : ℂ) = 2 * ((M - 1 : ℕ) : ℂ) := by
    have hL2 : L = 2 * (M - 1) := by omega
    rw [hL2]
    push_cast
    ring
  have hNC0 : ((M - 1 : ℕ) : ℂ) ≠ 0 := Nat.cast_ne_zero.mpr (by omega)
  have hLC0 : ((L : ℕ) : ℂ) ≠ 0 := Nat.cast_ne_zero.mpr (by omega)
  have ha2 : 2 ≤ a.length := by omega
  have hd3 : ∀ j, j < L → (valData a).getD j 0 = Ffun ev L j / ((L : ℕ) : ℂ) := by
    intro j hj
    by_cases hj0 : j = 0
    · subst hj0
      rw [valData_getD_zero a ha2, ha_getD 0 (by omega), if_pos (Or.inl rfl),
        div_div, hLC, mul_comm]
    · by_cases hjN : j = M - 1
      · subst hjN
        have hlast : a.length - 1 = M - 1 := by omega
        rw [show M - 1 = a.length - 1 from by omega, valData_getD_last a ha2,
          hlast, ha_getD (M - 1) (le_refl _), if_pos (Or.inr rfl), div_div, hLC,
          mul_comm]
      · by_cases hjmid : j ≤ M - 2
        · rw [valData_getD_midlo a ha2 j (by omega) (by omega),
            ha_getD j (by omega), if_neg (by tauto), div_div, hLC, mul_comm]
        · -- M ≤ j < L
          have hjhi : a.length ≤ j := by omega
          rw [valData_getD_hi a ha2 j hjhi (by omega)]
          have hidx : 2 * a.length - 2 - j = L - j := by omega
          rw [hidx, ha_getD (L - j) (by omega), if_neg (by omega)]
          rw [Ffun_sym ev L hL0 hsym j (by omega), div_div, hLC, mul_comm]
  -- the reconstructed values
  have hdlen : (valData a).length = L := by rw [valData_length, halen]; omega
  have hvlen : (valPre a).length = M := by rw [valPre_length a ha2, halen]
  have hval : ∀ k, k < M → (valPre a).getD k 0 = v.getD k 0 := by
    intro k hk
    rw [valPre_getD a ha2 k (by omega), halen,
      ifft_getD _ k (by rw [hdlen]; omega), hdlen]
    have hGcong : Gfun (fun m => (valData a).getD m 0) L k =
        Gfun (fun j => Ffun ev L j) L k / ((L : ℕ) : ℂ) := by
      rw [Gfun, Gfun, Finset.sum_div]
      refine Finset.sum_congr rfl fun j hj => ?_
      rw [hd3 j (Finset.mem_range.mp hj), div_mul_eq_mul_div]
    rw [hGcong, dft_inversionA L hL0 ev k (by omega)]
    have hevk : ev k = v.getD k 0 := even_data_getD_lo v k hk
    rw [← hevk, hMC, ← hLC]
    field_simp
  have hvallist : valPre a = v := by
    apply List.ext_getElem (by rw [hvlen])
    intro i hi1 hi2
    have hvi := hval i (by rw [← hvlen]; exact hi1)
    rwa [List.getD_eq_getElem _ _ hi1, List.getD_eq_getElem _ _ hi2] at hvi
  rw [chebpolyval, if_neg (by rw [halen]; omega)]
  cases b with
  | false =>
    simp only [Bool.false_eq_true, if_false]
    exact hvallist
  | true =>
    rw [if_pos rfl, hvallist, map_recast_of_real v (hreal rfl)]

/-- C4 witness: the round trip applied to the concrete length-1 complex
sample vector `[i]`, where both transforms return their input unchanged. -/
theorem chebpolyfit_roundtrip_witness :
    1 ≤ ([Complex.I] : List ℂ).length ∧
    chebpolyval (chebpolyfit [Complex.I] false) false = [Complex.I] :=
  ⟨by decide, chebpolyfit_roundtrip [Complex.I] false (by decide) (by simp)⟩

/-! ### The reverse round trip: chebpolyfit after chebpolyval -/

set_option maxHeartbeats 1000000 in
theorem chebpolyval_roundtrip (a : List ℂ) (b : Bool) (h1 : 1 ≤ a.length)
    (hreal : b = true → ∀ z ∈ a, z.im = 0) :
    chebpolyfit (chebpolyval a b) b = a := by
  by_cases hM1 : a.length = 1
  · rw [chebpolyval, if_pos hM1, chebpolyfit, if_pos hM1]
  have h2 : 2 ≤ a.length := by omega
  set M := a.length with hM
  set L := 2 * M - 2 with hLdef
  have hL0 : 0 < L := by omega
  set dv : ℕ → ℂ := fun j => (valData a).getD j 0 with hdv
  have hdlen : (valData a).length = L := by rw [valData_length]; omega
  have hdvsym : ∀ m, 1 ≤ m → m < L → dv (L - m) = dv m := by
    intro m hm1 hm2
    show (valData a).getD (L - m) 0 = (valData a).getD m 0
    by_cases hmlo : m ≤ M - 2
    · rw [valData_getD_hi a h2 (L - m) (by omega) (by omega)]
      have hidx : 2 * a.length - 2 - (L - m) = m := by omega
      rw [hidx]
      by_cases hm0 : 1 ≤ m
      · rw [valData_getD_midlo a h2 m hm0 (by omega)]
      · omega
    · by_cases hmN : m = M - 1
      · rw [show L - m = m from by omega]
      · -- M ≤ m < L
        rw [valData_getD_hi a h2 m (by omega) (by omega),
          valData_getD_midlo a h2 (L - m) (by omega) (by omega)]
  have hvd_real : b = true → ∀ z ∈ valData a, z.im = 0 := by
    intro hb z hz
    have hmap : ∀ w ∈ (even_data a).map (fun z => z / 2), w.im = 0 := by
      intro w hw
      obtain ⟨x, hx, rfl⟩ := List.mem_map.mp hw
      exact im_zero_div _ _ (hreal hb x (mem_even_data a x hx)) (by simp)
    simp only [valData, updAt] at hz
    rcases List.mem_or_eq_of_mem_set hz with hz1 | rfl
    · rcases List.mem_or_eq_of_mem_set hz1 with hz2 | rfl
      · exact hmap _ hz2
      · exact im_zero_mul _ _ (getD_im_zero _ hmap 0) (by simp)
    · refine im_zero_mul _ _ ?_ (by simp)
      apply getD_im_zero
      intro w hw
      rcases List.mem_or_eq_of_mem_set hw with hw1 | rfl
      · exact hmap _ hw1
      · exact im_zero_mul _ _ (getD_im_zero _ hmap 0) (by simp)
  have hdvim : b = true → ∀ j, (dv j).im = 0 := fun hb j =>
    getD_im_zero _ (hvd_real hb) j
  have hMC : ((M : ℕ) : ℂ) - 1 = ((M - 1 : ℕ) : ℂ) := by
    have hc : ((M - 1 : ℕ) : ℂ) = (M : ℂ) - 1 := by
      push_cast [Nat.cast_sub (by omega : 1 ≤ M)]
      ring
    rw [hc]
  have hLC : ((L : ℕ) : ℂ) = 2 * ((M - 1 : ℕ) : ℂ) := by
    have hL2 : L = 2 * (M - 1) := by omega
    rw [hL2]
    push_cast
    ring
  have hNC0 : ((M - 1 : ℕ) : ℂ) ≠ 0 := Nat.cast_ne_zero.mpr (by omega)
  have hLC0 : ((L : ℕ) : ℂ) ≠ 0 := Nat.cast_ne_zero.mpr (by omega)
  -- entries of the reconstructed values
  have hcv : ∀ k, k < M → (valPre a).getD k 0 = Gfun dv L k := by
    intro k hk
    rw [valPre_getD a h2 k hk, ifft_getD _ k (by rw [hdlen]; omega), hdlen,
      hMC, ← hLC, ← mul_div_assoc, mul_div_cancel_left₀ _ hLC0, hdv]
  set w : List ℂ := chebpolyval a b with hw
  have hwlen : w.length = M := by rw [hw]; exact chebpolyval_length a b (by omega)
  have hweq : w = (if b = true then (valPre a).map (fun z => ((z.re : ℝ) : ℂ))
      else valPre a) := by
    rw [hw, chebpolyval, if_neg hM1]
  have hw_getD : ∀ k, k < M → w.getD k 0 = Gfun dv L k := by
    intro k hk
    rw [hweq]
    cases b with
    | false =>
      simp only [Bool.false_eq_true, if_false]
      exact hcv k hk
    | true =>
      rw [if_pos rfl, getD_map_zero _ (fun z => ((z.re : ℝ) : ℂ)) (by simp) k,
        hcv k hk]
      exact recast_of_im_zero _ (Gfun_im_zero dv L hL0 (hdvim rfl) hdvsym k)
  have hwreal : b = true → ∀ z ∈ w, z.im = 0 := by
    intro hb z hz
    rw [hweq, if_pos hb] at hz
    obtain ⟨x, _, rfl⟩ := List.mem_map.mp hz
    simp
  -- the forward transform of the reconstructed values
  have he2len : (even_data w).length = L := by rw [even_data_length, hwlen]; omega
  set e2 : ℕ → ℂ := fun k => (even_data w).getD k 0 with he2
  have he2val : ∀ k, k < L → e2 k = Gfun dv L k := by
    intro k hk
    by_cases hkM : k < M
    · show (even_data w).getD k 0 = _
      rw [even_data_getD_lo w k (by rw [hwlen]; exact hkM)]
      exact hw_getD k hkM
    · show (even_data w).getD k 0 = _
      rw [even_data_getD_hi w k (by rw [hwlen]; exact h2) (by rw [hwlen]; omega)
        (by rw [hwlen]; omega)]
      have hidx : 2 * w.length - 2 - k = L - k := by rw [hwlen]
      rw [hidx, hw_getD (L - k) (by omega)]
      exact Gfun_sym dv L hL0 hdvsym k (by omega)
  have hF2 : ∀ j, j < L → (fft (even_data w)).getD j 0 = (L : ℂ) * dv j := by
    intro j hj
    rw [fft_getD _ j (by rw [he2len]; exact hj), he2len]
    have hcong : Ffun e2 L j = Ffun (fun k => Gfun dv L k) L j := by
      rw [Ffun, Ffun]
      refine Finset.sum_congr rfl fun k hk => ?_
      rw [he2val k (Finset.mem_range.mp hk)]
    rw [hcong, dft_inversionB L hL0 dv j hj]
  have hF2im : b = true → ∀ z ∈ fft (even_data w), z.im = 0 := by
    intro hb z hz
    obtain ⟨j, hj, rfl⟩ := mem_fft _ z hz
    rw [he2len] at hj
    have hval : Ffun (fun m => (even_data w).getD m 0) (even_data w).length j =
        (L : ℂ) * dv j := by
      rw [← fft_getD _ j (by rw [he2len]; exact hj)]
      exact hF2 j hj
    rw [hval]
    exact im_zero_mul _ _ (by simp) (hdvim hb j)
  -- the recovered coefficients
  have hN2 : (even_data w).length / 2 = M - 1 := by rw [he2len]; omega
  have hfitlen : (chebpolyfit w b).length = M := by
    rw [chebpolyfit_length w b (by omega), hwlen]
  have hfit_getD : ∀ j, j ≤ M - 1 → (chebpolyfit w b).getD j 0 = a.getD j 0 := by
    intro j hj
    have hjL : j < L := by omega
    have hpre : (dctPre (even_data w)).getD j 0 =
        (if j = 0 ∨ j = M - 1 then ((L : ℂ) * dv j) / ((M - 1 : ℕ) : ℂ) / 2
         else ((L : ℂ) * dv j) / ((M - 1 : ℕ) : ℂ)) := by
      rw [dctPre_getD _ j (by rw [he2len]; omega) (by rw [hN2]; exact hj), hN2,
        hF2 j hjL]
    have hcancel2 : ∀ x : ℂ, 2 * ((M - 1 : ℕ) : ℂ) * x / ((M - 1 : ℕ) : ℂ) = 2 * x := by
      intro x
      rw [show 2 * ((M - 1 : ℕ) : ℂ) * x = ((M - 1 : ℕ) : ℂ) * (2 * x) from by ring,
        mul_div_cancel_left₀ _ hNC0]
    have hcancel : ∀ x : ℂ, 2 * ((M - 1 : ℕ) : ℂ) * x / ((M - 1 : ℕ) : ℂ) / 2 = x := by
      intro x
      rw [hcancel2 x, mul_comm (2 : ℂ) x, mul_div_cancel_right₀ x two_ne_zero]
    have hcore : (dctPre (even_data w)).getD j 0 = a.getD j 0 := by
      rw [hpre]
      by_cases hj0 : j = 0
      · subst hj0
        rw [if_pos (Or.inl rfl), hLC, hcancel]
        exact valData_getD_zero a h2
      · by_cases hjN : j = M - 1
        · subst hjN
          rw [if_pos (Or.inr rfl), hLC, hcancel]
          show (valData a).getD (M - 1) 0 = _
          rw [show M - 1 = a.length - 1 from by omega, valData_getD_last a h2]
        · rw [if_neg (show ¬(j = 0 ∨ j = M - 1) from fun hc => hc.elim hj0 hjN),
            hLC, hcancel2]
          have hdvj : dv j = a.getD j 0 / 2 :=
            valData_getD_midlo a h2 j (by omega) (by omega)
          rw [hdvj, mul_comm (2 : ℂ) _, div_mul_cancel₀ _ (two_ne_zero)]
    rw [chebpolyfit, if_neg (by rw [hwlen]; omega), dct]
    cases b with
    | false =>
      simp only [Bool.false_eq_true, if_false]
      exact hcore
    | true =>
      rw [if_pos rfl, getD_map_zero _ (fun z => ((z.re : ℝ) : ℂ)) (by simp) j]
      have him : ((dctPre (even_data w)).getD j 0).im = 0 := by
        rw [hcore]
        exact getD_im_zero _ (hreal rfl) j
      rw [recast_of_im_zero _ him, hcore]
  -- conclude by extensionality
  apply List.ext_getElem (by rw [hfitlen])
  intro i hi1 hi2
  have hfi := hfit_getD i (by rw [hfitlen] at hi1; omega)
  rwa [List.getD_eq_getElem _ _ hi1, List.getD_eq_getElem _ _ hi2] at hfi

/-! ### Addition in coefficient space -/

theorem getD_pad_zero (xs : List ℂ) (n i : ℕ) :
    (xs ++ List.replicate (n - xs.length) 0).getD i 0 = xs.getD i 0 := by
  by_cases hi : i < xs.length
  · rw [List.getD_eq_getElem _ _ (by rw [List.length_append]; omega),
      List.getElem_append_left hi, List.getD_eq_getElem _ _ hi]
  · by_cases hi2 : i < xs.length + (n - xs.length)
    · rw [List.getD_eq_getElem _ _
        (by rw [List.length_append, List.length_replicate]; omega),
        List.getElem_append_right (le_of_not_lt hi), List.getElem_replicate,
        List.getD_eq_default _ _ (le_of_not_lt hi)]
    · rw [List.getD_eq_default _ _
        (by rw [List.length_append, List.length_replicate]; omega),
        List.getD_eq_default _ _ (le_of_not_lt hi)]

theorem getD_zipWith_add (xs ys : List ℂ) (h : xs.length = ys.length) (i : ℕ) :
    (List.zipWith (fun x y => x + y) xs ys).getD i 0 =
      xs.getD i 0 + ys.getD i 0 := by
  by_cases hi : i < xs.length
  · rw [List.getD_eq_getElem _ _ (by rw [List.length_zipWith]; omega),
      List.getElem_zipWith, List.getD_eq_getElem _ _ hi,
      List.getD_eq_getElem _ _ (by omega)]
  · rw [List.getD_eq_default _ _ (by rw [List.length_zipWith]; omega),
      List.getD_eq_default _ _ (le_of_not_lt hi),
      List.getD_eq_default _ _ (by omega), add_zero]

theorem chebpolyfit_real (v : List ℂ) (hr : ∀ z ∈ v, z.im = 0) :
    ∀ z ∈ chebpolyfit v true, z.im = 0 := by
  intro z hz
  rw [chebpolyfit] at hz
  by_cases h1 : v.length = 1
  · rw [if_pos h1] at hz
    exact hr z hz
  · rw [if_neg h1, dct, if_pos rfl] at hz
    obtain ⟨x, _, rfl⟩ := List.mem_map.mp hz
    simp

theorem prunedCoeffs_length_pos (l : List ℂ) (s : ℝ) (h1 : 1 ≤ l.length) :
    1 ≤ (prunedCoeffs l s).length := by
  have hc : 0 < cutoff l s := by
    simp only [cutoff]
    omega
  rw [prunedCoeffs, List.length_take]
  omega

theorem add_sum_spec (cb cs : List ℂ) (b : Bool) (sc : ℝ)
    (hb1 : 1 ≤ cb.length) (hlen : cs.length ≤ cb.length)
    (hbr : b = true → ∀ z ∈ cb, z.im = 0)
    (hsr : b = true → ∀ z ∈ cs, z.im = 0) :
    (List.zipWith (fun x y => x + y) cb
        (cs ++ List.replicate (cb.length - cs.length) 0)).length = cb.length ∧
    (∀ i, (List.zipWith (fun x y => x + y) cb
        (cs ++ List.replicate (cb.length - cs.length) 0)).getD i 0 =
      cb.getD i 0 + cs.getD i 0) ∧
    (Chebfun.from_chebcoeff
        (List.zipWith (fun x y => x + y) cb
          (cs ++ List.replicate (cb.length - cs.length) 0)) b true
        sc).chebyshev_coefficients =
      prunedCoeffs
        (List.zipWith (fun x y => x + y) cb
          (cs ++ List.replicate (cb.length - cs.length) 0)) sc := by
  have hpadlen : (cs ++ List.replicate (cb.length - cs.length) (0 : ℂ)).length =
      cb.length := by
    rw [List.length_append, List.length_replicate]
    omega
  have hSlen : (List.zipWith (fun x y => x + y) cb
      (cs ++ List.replicate (cb.length - cs.length) 0)).length = cb.length := by
    rw [List.length_zipWith, hpadlen, min_self]
  have hgetD : ∀ i, (List.zipWith (fun x y => x + y) cb
      (cs ++ List.replicate (cb.length - cs.length) 0)).getD i 0 =
      cb.getD i 0 + cs.getD i 0 := by
    intro i
    rw [getD_zipWith_add cb _ hpadlen.symm i, getD_pad_zero]
  refine ⟨hSlen, hgetD, ?_⟩
  have hreal : b = true → ∀ z ∈ List.zipWith (fun x y => x + y) cb
      (cs ++ List.replicate (cb.length - cs.length) (0 : ℂ)), z.im = 0 := by
    intro hb z hz
    obtain ⟨i, hi, rfl⟩ := List.mem_iff_getElem.mp hz
    rw [← List.getD_eq_getElem _ 0 hi, hgetD i, Complex.add_im,
      getD_im_zero _ (hbr hb) i, getD_im_zero _ (hsr hb) i, add_zero]
  have hpc1 : 1 ≤ (prunedCoeffs (List.zipWith (fun x y => x + y) cb
      (cs ++ List.replicate (cb.length - cs.length) 0)) sc).length :=
    prunedCoeffs_length_pos _ _ (by rw [hSlen]; exact hb1)
  have hpcreal : b = true → ∀ z ∈ prunedCoeffs (List.zipWith (fun x y => x + y)
      cb (cs ++ List.replicate (cb.length - cs.length) 0)) sc, z.im = 0 :=
    fun hb z hz => hreal hb z (List.mem_of_mem_take hz)
  exact chebpolyval_roundtrip _ b hpc1 hpcreal

/-- C7: the coefficient series of `f + g` is the elementwise sum of the two
operands' coefficient series after zero-padding the shorter one to the
longer's length, pruned by the combined scale; the new scale is
`max(f.scale, g.scale)`; the values of the sum are rebuilt from the summed
coefficients alone through pruning and `chebpolyval` (no resampling of any
function); a scalar operand is first promoted to the degree-0 interpolant
with value list `[s]`. -/
theorem add_coefficient_space (f g : Chebfun)
    (hf1 : 1 ≤ f.values.length) (hg1 : 1 ≤ g.values.length)
    (hfr : f.isReal = true → ∀ z ∈ f.values, z.im = 0)
    (hgr : g.isReal = true → ∀ z ∈ g.values, z.im = 0) :
    ∃ S : List ℂ,
      S.length =
        max f.chebyshev_coefficients.length g.chebyshev_coefficients.length ∧
      (∀ i, S.getD i 0 =
        f.chebyshev_coefficients.getD i 0 +
          g.chebyshev_coefficients.getD i 0) ∧
      (f.add g).chebyshev_coefficients =
        prunedCoeffs S (max f.scale g.scale) ∧
      (f.add g).scale = max f.scale g.scale ∧
      (f.add g).values =
        chebpolyval (prunedCoeffs S (max f.scale g.scale))
          (f.isReal && g.isReal) ∧
      ∀ s b2, Chebfun.addScalar f s b2 = f.add (promoteScalar s b2) ∧
        (promoteScalar s b2).values = [s] := by
  have hcf : f.chebyshev_coefficients.length = f.values.length :=
    chebpolyfit_length f.values f.isReal hf1
  have hcg : g.chebyshev_coefficients.length = g.values.length :=
    chebpolyfit_length g.values g.isReal hg1
  have hcfr : (f.isReal && g.isReal) = true →
      ∀ z ∈ f.chebyshev_coefficients, z.im = 0 := by
    intro hb
    have hbf : f.isReal = true := ((Bool.and_eq_true _ _).mp hb).1
    show ∀ z ∈ chebpolyfit f.values f.isReal, z.im = 0
    rw [hbf]
    exact chebpolyfit_real f.values (hfr hbf)
  have hcgr : (f.isReal && g.isReal) = true →
      ∀ z ∈ g.chebyshev_coefficients, z.im = 0 := by
    intro hb
    have hbg : g.isReal = true := ((Bool.and_eq_true _ _).mp hb).2
    show ∀ z ∈ chebpolyfit g.values g.isReal, z.im = 0
    rw [hbg]
    exact chebpolyfit_real g.values (hgr hbg)
  by_cases hbig : g.size > f.size
  · have hlen : f.chebyshev_coefficients.length ≤
        g.chebyshev_coefficients.length := by
      rw [hcf, hcg]
      exact le_of_lt hbig
    obtain ⟨hSlen, hget, hco⟩ := add_sum_spec g.chebyshev_coefficients
      f.chebyshev_coefficients (f.isReal && g.isReal) (max f.scale g.scale)
      (by rw [hcg]; exact hg1) hlen hcgr hcfr
    have hadd : f.add g = Chebfun.from_chebcoeff
        (List.zipWith (fun x y => x + y) g.chebyshev_coefficients
          (f.chebyshev_coefficients ++
            List.replicate (g.chebyshev_coefficients.length -
              f.chebyshev_coefficients.length) 0))
        (f.isReal && g.isReal) true (max f.scale g.scale) := by
      simp only [Chebfun.add, if_pos hbig]
    refine ⟨List.zipWith (fun x y => x + y) g.chebyshev_coefficients
      (f.chebyshev_coefficients ++
        List.replicate (g.chebyshev_coefficients.length -
          f.chebyshev_coefficients.length) 0), ?_, ?_, ?_, rfl, ?_,
      fun s b2 => ⟨rfl, rfl⟩⟩
    · rw [hSlen]
      exact (max_eq_right hlen).symm
    · intro i
      rw [hget i, add_comm]
    · rw [hadd]
      exact hco
    · rw [hadd]
      rfl
  · have hlen : g.chebyshev_coefficients.length ≤
        f.chebyshev_coefficients.length := by
      rw [hcf, hcg]
      exact le_of_not_lt hbig
    obtain ⟨hSlen, hget, hco⟩ := add_sum_spec f.chebyshev_coefficients
      g.chebyshev_coefficients (f.isReal && g.isReal) (max f.scale g.scale)
      (by rw [hcf]; exact hf1) hlen hcfr hcgr
    have hadd : f.add g = Chebfun.from_chebcoeff
        (List.zipWith (fun x y => x + y) f.chebyshev_coefficients
          (g.chebyshev_coefficients ++
            List.replicate (f.chebyshev_coefficients.length -
              g.chebyshev_coefficients.length) 0))
        (f.isReal && g.isReal) true (max f.scale g.scale) := by
      simp only [Chebfun.add, if_neg hbig]
    refine ⟨List.zipWith (fun x y => x + y) f.chebyshev_coefficients
      (g.chebyshev_coefficients ++
        List.replicate (f.chebyshev_coefficients.length -
          g.chebyshev_coefficients.length) 0), ?_, ?_, ?_, rfl, ?_,
      fun s b2 => ⟨rfl, rfl⟩⟩
    · rw [hSlen]
      exact (max_eq_left hlen).symm
    · intro i
      exact hget i
    · rw [hadd]
      exact hco
    · rw [hadd]
      rfl

/-- C7 witness: the addition theorem applied to two copies of the concrete
degree-0 complex interpolant built from the value list `[i]`. -/
theorem add_coefficient_space_witness :
    (1 ≤ (Chebfun.ofValues [Complex.I] false).values.length) ∧
    ∃ S : List ℂ,
      S.length =
        max (Chebfun.ofValues [Complex.I] false).chebyshev_coefficients.length
          (Chebfun.ofValues [Complex.I] false).chebyshev_coefficients.length ∧
      (∀ i, S.getD i 0 =
        (Chebfun.ofValues [Complex.I] false).chebyshev_coefficients.getD i 0 +
          (Chebfun.ofValues [Complex.I]
            false).chebyshev_coefficients.getD i 0) ∧
      ((Chebfun.ofValues [Complex.I] false).add
          (Chebfun.ofValues [Complex.I] false)).chebyshev_coefficients =
        prunedCoeffs S (max (Chebfun.ofValues [Complex.I] false).scale
          (Chebfun.ofValues [Complex.I] false).scale) ∧
      ((Chebfun.ofValues [Complex.I] false).add
          (Chebfun.ofValues [Complex.I] false)).scale =
        max (Chebfun.ofValues [Complex.I] false).scale
          (Chebfun.ofValues [Complex.I] false).scale ∧
      ((Chebfun.ofValues [Complex.I] false).add
          (Chebfun.ofValues [Complex.I] false)).values =
        chebpolyval (prunedCoeffs S
          (max (Chebfun.ofValues [Complex.I] false).scale
            (Chebfun.ofValues [Complex.I] false).scale))
          ((Chebfun.ofValues [Complex.I] false).isReal &&
            (Chebfun.ofValues [Complex.I] false).isReal) ∧
      ∀ s b2, Chebfun.addScalar (Chebfun.ofValues [Complex.I] false) s b2 =
          (Chebfun.ofValues [Complex.I] false).add (promoteScalar s b2) ∧
        (promoteScalar s b2).values = [s] :=
  ⟨le_refl 1, add_coefficient_space (Chebfun.ofValues [Complex.I] false)
    (Chebfun.ofValues [Complex.I] false) (le_refl 1) (le_refl 1)
    (fun h => Bool.noConfusion h) (fun h => Bool.noConfusion h)⟩

/-- C2 witness: the amended theorem applied at the concrete hint degree 8. -/
theorem from_function_hint_single_trial_witness :
    1 ≤ 8 ∧ trialExponents (hintKmin 8) (hintKmax 8) = [Nat.log 2 8 + 1] :=
  ⟨by decide, (from_function_hint_single_trial 8 (by decide)).2.2.1⟩

end Pychebfun
